import Mathlib

/-!
Verification of the micro-llms.ts repository: a scalar reverse-mode
automatic-differentiation engine (class Value in src/gpt.ts) together with
three transformer forward passes (the gpt function in src/gpt.ts, the Llama
class in src/src/models/llama.ts and the Deepseek class in
src/unnamed/part_001), plus the shared training and inference driver in
src/unnamed/part_000 and the binary parameter load routine.

Embedding conventions.

The computation graph built by class Value is a DAG with shared nodes
(object identity in the source).  For the backward pass we embed it as an
arena: a list of nodes, each holding its data and the list of
(parent index, local gradient coefficient) pairs that the source stores in
the private fields of Value.  Construction order in the source guarantees
every parent of a node already exists when the node is created, which the
arena records as the well-formedness field of Graph: parent indices are
strictly smaller than the index of the node itself.  Gradients are a total
map from indices to the scalar type; mutation of the grad field becomes
functional update.

The recursive helper build of Value.backward terminates because every edge
goes to a strictly smaller index; the embedding makes the same argument
explicit by running the recursion on a fuel argument that starts at
index + 1, which the well-formedness field proves sufficient.

For the numeric layers (softmax, rmsnorm, linear, attention) the source
combines Value objects whose data field is, for every operator, exactly the
corresponding real arithmetic applied to the data of the operands (proved
for each operator in the Value section below); the forward passes are
therefore embedded at the level of the data fields, over the real numbers,
with JavaScript floats modelled as reals.  JavaScript array indexing x[i]
is embedded as List.getD with default 0 (resp. []); the shape preconditions
of the spec make the defaults unreachable at every call site that a claim
quantifies over.
-/

set_option maxHeartbeats 1000000

namespace MicroLLMs

/-! ## Arena embedding of the Value graph and of Value.backward -/

/-- One node of the computation graph: its data and the list of
(parent index, local gradient coefficient) pairs, mirroring the private
fields of class Value in src/gpt.ts, lines 41 to 51. -/
structure Node (α : Type) where
  data : α
  parents : List (Nat × α)

/-- An arena of nodes.  The field wf records the construction invariant of
the source: a Value is created from already existing parents, so every
parent index is strictly smaller than the index of the node itself. -/
structure Graph (α : Type) where
  nodes : List (Node α)
  wf : ∀ i : Nat, ∀ hi : i < nodes.length, ∀ p ∈ nodes[i].parents, p.1 < i

variable {α : Type}

/-- The parent list of node i, empty for an out-of-range index. -/
def Graph.parentsAt (g : Graph α) (i : Nat) : List (Nat × α) :=
  match g.nodes[i]? with
  | some n => n.parents
  | none => []

/-- The indices of the operands of node i (the _children field of the
source, which stores the operands of the operator that created the node). -/
def Graph.childIdxs (g : Graph α) (i : Nat) : List Nat :=
  (g.parentsAt i).map Prod.fst

theorem Graph.parentsAt_lt (g : Graph α) {i : Nat} {p : Nat × α}
    (hp : p ∈ g.parentsAt i) : p.1 < i := by
  unfold Graph.parentsAt at hp
  rcases hidx : g.nodes[i]? with _ | n
  · rw [hidx] at hp; simp at hp
  · rw [hidx] at hp
    have hi : i < g.nodes.length := by
      by_contra hge
      rw [List.getElem?_eq_none (Nat.le_of_not_lt hge)] at hidx
      cases hidx
    have : g.nodes[i]? = some g.nodes[i] := List.getElem?_eq_getElem hi
    rw [this] at hidx
    cases hidx
    exact g.wf i hi p hp

theorem Graph.childIdxs_lt (g : Graph α) {i c : Nat}
    (hc : c ∈ g.childIdxs i) : c < i := by
  unfold Graph.childIdxs at hc
  rcases List.mem_map.mp hc with ⟨p, hp, hpc⟩
  exact hpc ▸ g.parentsAt_lt hp

/-- The traversal state of Value.backward: the visited set and the
post-order list topo, as in src/gpt.ts lines 94 and 95. -/
structure BState where
  visited : List Nat
  topo : List Nat

/-- The recursive helper build of Value.backward (src/gpt.ts lines 97 to
103): mark the node visited, recurse into every operand, then append the
node to the post-order list.  The fuel argument makes the well-founded
recursion of the source (edges strictly decrease the index) structural;
fuel = index + 1 always suffices. -/
def buildAux (g : Graph α) : Nat → Nat → BState → BState
  | 0, _, s => s
  | fuel + 1, v, s =>
    if v ∈ s.visited then s
    else
      let s1 : BState := ⟨v :: s.visited, s.topo⟩
      let s2 := (g.childIdxs v).foldl (fun acc c => buildAux g fuel c acc) s1
      ⟨s2.visited, s2.topo ++ [v]⟩

/-- The complete traversal build(this) of Value.backward, started from the
designated output node with empty visited set and empty topo list. -/
def buildTopo (g : Graph α) (out : Nat) : BState :=
  buildAux g (out + 1) out ⟨[], []⟩

/-- One iteration of the distribution loop of Value.backward (src/gpt.ts
lines 108 to 113): for each (parent, coefficient) pair of node v, add
coefficient times the gradient of v to the gradient of the parent. -/
def gradStep [Mul α] [Add α] (g : Graph α) (gr : Nat → α) (v : Nat) : Nat → α :=
  (g.parentsAt v).foldl
    (fun f p => Function.update f p.1 (f p.1 + p.2 * f v)) gr

/-- Value.backward from a given initial gradient assignment: build the
post-order list, seed the gradient of the output node with 1, then process
the list in reverse finishing order. -/
def backwardFrom [Mul α] [Add α] [One α] (g : Graph α) (out : Nat)
    (gr0 : Nat → α) : Nat → α :=
  ((buildTopo g out).topo.reverse).foldl (gradStep g) (Function.update gr0 out 1)

/-- Value.backward under the precondition of the claim: every gradient is
initially 0. -/
def backward [Mul α] [Add α] [One α] [Zero α] (g : Graph α) (out : Nat) :
    Nat → α :=
  backwardFrom g out (fun _ => 0)

/-- Reachability from the output node along operand edges: the set of nodes
whose grad the backward pass is specified to fill in. -/
inductive Reach (g : Graph α) (out : Nat) : Nat → Prop
  | refl : Reach g out out
  | step {v p : Nat} : Reach g out v → p ∈ g.childIdxs v → Reach g out p

theorem Reach.le {g : Graph α} {out n : Nat} (h : Reach g out n) : n ≤ out := by
  induction h with
  | refl => exact Nat.le_refl out
  | step hr hc ih => exact Nat.le_trans (Nat.le_of_lt (g.childIdxs_lt hc)) ih

/-- Total coefficient attached to operand n inside a parent list. -/
def listCoeff [AddCommMonoid α] (ps : List (Nat × α)) (n : Nat) : α :=
  ((ps.filter (fun p => p.1 = n)).map Prod.snd).sum

/-- The total local-gradient coefficient attached to the edge from node c
down to operand n: the sum of the coefficients of every occurrence of n in
the parent list of c (an operand may occur several times, as in add(x,x)). -/
def coeffTo [AddCommMonoid α] (g : Graph α) (c n : Nat) : α :=
  listCoeff (g.parentsAt c) n

/-- The chain-rule derivative of the data of the output node with respect to
the data of node n: the sum, over all operand paths from the output down to
n, of the products of the recorded local gradient coefficients.  It obeys
the defining recursion of the adjoint: the seed 1 at the output plus the
contributions coefficient times derivative from every node c that lists n
among its operands (such c have strictly larger index, which grounds the
recursion). -/
def delta [CommRing α] (g : Graph α) (out : Nat) (n : Nat) : α :=
  (if n = out then 1 else 0) +
    ∑ c ∈ (Finset.Ico (n + 1) g.nodes.length).attach,
      coeffTo g c.1 n * delta g out c.1
termination_by g.nodes.length - n
decreasing_by
  have hc := Finset.mem_Ico.mp c.2
  omega

/-! ## Ordering in a list, and basic facts about it -/

/-- Element a occurs strictly before element b in the list l. -/
def Before (l : List Nat) (a b : Nat) : Prop :=
  ∃ i j : Nat, i < j ∧ l[i]? = some a ∧ l[j]? = some b

theorem getElem?_some_lt {l : List Nat} {i a : Nat} (h : l[i]? = some a) :
    i < l.length := by
  by_contra hg
  rw [List.getElem?_eq_none (Nat.le_of_not_lt hg)] at h
  cases h

theorem mem_of_getElem?_some {l : List Nat} {i a : Nat} (h : l[i]? = some a) :
    a ∈ l := by
  have hi : i < l.length := getElem?_some_lt h
  rw [List.getElem?_eq_getElem hi] at h
  cases h
  exact List.getElem_mem hi

theorem exists_getElem?_of_mem {l : List Nat} {a : Nat} (h : a ∈ l) :
    ∃ i : Nat, l[i]? = some a := by
  obtain ⟨⟨i, hi⟩, he⟩ := List.mem_iff_get.mp h
  exact ⟨i, by rw [List.getElem?_eq_getElem hi]; exact congrArg some he⟩

theorem getElem?_append_left {l₁ l₂ : List Nat} {n : Nat} (h : n < l₁.length) :
    (l₁ ++ l₂)[n]? = l₁[n]? := by
  rw [List.getElem?_append]
  simp [h]

theorem Before.append_right {l l₂ : List Nat} {a b : Nat} (h : Before l a b) :
    Before (l ++ l₂) a b := by
  obtain ⟨i, j, hij, ha, hb⟩ := h
  exact ⟨i, j, hij,
    by rw [getElem?_append_left (getElem?_some_lt ha)]; exact ha,
    by rw [getElem?_append_left (getElem?_some_lt hb)]; exact hb⟩

theorem Before.snoc {l : List Nat} {a b : Nat} (h : a ∈ l) :
    Before (l ++ [b]) a b := by
  obtain ⟨i, hi⟩ := exists_getElem?_of_mem h
  refine ⟨i, l.length, getElem?_some_lt hi, ?_, ?_⟩
  · rw [getElem?_append_left (getElem?_some_lt hi)]; exact hi
  · rw [List.getElem?_append_right (Nat.le_refl _)]; simp

theorem Before.mem_left {l : List Nat} {a b : Nat} (h : Before l a b) : a ∈ l := by
  obtain ⟨i, _, _, ha, _⟩ := h
  exact mem_of_getElem?_some ha

/-- In a duplicate-free list split as P ++ b :: L, everything that occurs
before b lies in the front part P. -/
theorem Before.mem_front {P L : List Nat} {a b : Nat}
    (hnd : (P ++ b :: L).Nodup) (h : Before (P ++ b :: L) a b) : a ∈ P := by
  obtain ⟨i, j, hij, ha, hb⟩ := h
  have hbp : (P ++ b :: L)[P.length]? = some b := by
    rw [List.getElem?_append_right (Nat.le_refl _)]
    simp
  have hj : j = P.length :=
    List.getElem?_inj (getElem?_some_lt hb) hnd (hb.trans hbp.symm)
  have hiP : i < P.length := hj ▸ hij
  rw [getElem?_append_left hiP] at ha
  exact mem_of_getElem?_some ha

theorem Before.reverse {l : List Nat} {a b : Nat} (h : Before l a b) :
    Before l.reverse b a := by
  obtain ⟨i, j, hij, ha, hb⟩ := h
  have hi := getElem?_some_lt ha
  have hj := getElem?_some_lt hb
  refine ⟨l.length - 1 - j, l.length - 1 - i, by omega, ?_, ?_⟩
  · rw [List.getElem?_reverse (by omega : l.length - 1 - j < l.length)]
    have : l.length - 1 - (l.length - 1 - j) = j := by omega
    rw [this]; exact hb
  · rw [List.getElem?_reverse (by omega : l.length - 1 - i < l.length)]
    have : l.length - 1 - (l.length - 1 - i) = i := by omega
    rw [this]; exact ha

/-! ## Verification of the depth-first traversal of Value.backward -/

/-- The invariant of the traversal state: the post-order list has no
duplicates, is contained in the visited set, and is closed under operand
edges with every operand listed before the node it feeds. -/
def Inv (g : Graph α) (s : BState) : Prop :=
  s.topo.Nodup ∧
  (∀ x ∈ s.topo, x ∈ s.visited) ∧
  (∀ x ∈ s.topo, ∀ c ∈ g.childIdxs x, c ∈ s.topo ∧ Before s.topo c x)

theorem Reach.trans {g : Graph α} {a b x : Nat}
    (hbx : Reach g b x) (hab : Reach g a b) : Reach g a x := by
  induction hbx with
  | refl => exact hab
  | step hr hc ih => exact Reach.step ih hc

/-- Postcondition of one call of the recursive helper build on node v. -/
def BuildPost (g : Graph α) (v : Nat) (s s' : BState) : Prop :=
  Inv g s' ∧
  (∀ x ∈ s.visited, x ∈ s'.visited) ∧
  (∃ tl, s'.topo = s.topo ++ tl) ∧
  (∀ x, (x ∈ s'.visited ∧ x ∉ s'.topo) ↔ (x ∈ s.visited ∧ x ∉ s.topo)) ∧
  (v ∈ s'.topo ∨ (v ∈ s.visited ∧ v ∉ s.topo)) ∧
  (∀ x ∈ s'.topo, x ∈ s.topo ∨ Reach g v x)

/-- Postcondition of the loop of build over the operand list of node v. -/
def FoldPost (g : Graph α) (cs : List Nat) (t t' : BState) : Prop :=
  Inv g t' ∧
  (∀ x ∈ t.visited, x ∈ t'.visited) ∧
  (∃ tl, t'.topo = t.topo ++ tl) ∧
  (∀ x, (x ∈ t'.visited ∧ x ∉ t'.topo) ↔ (x ∈ t.visited ∧ x ∉ t.topo)) ∧
  (∀ c ∈ cs, c ∈ t'.topo) ∧
  (∀ x ∈ t'.topo, x ∈ t.topo ∨ ∃ c ∈ cs, Reach g c x)

theorem foldAux_spec (g : Graph α) (fuel v : Nat)
    (IH : ∀ w s, w < fuel → Inv g s →
      (∀ x ∈ s.visited, x ∉ s.topo → w ≤ x) →
      BuildPost g w s (buildAux g fuel w s)) :
    ∀ (cs : List Nat) (t : BState), (∀ c ∈ cs, c < v) → v ≤ fuel →
      Inv g t → (∀ x ∈ t.visited, x ∉ t.topo → v ≤ x) →
      FoldPost g cs t (cs.foldl (fun acc c => buildAux g fuel c acc) t) := by
  intro cs
  induction cs with
  | nil =>
    intro t _ _ hInv _
    exact ⟨hInv, fun x hx => hx, ⟨[], (List.append_nil _).symm⟩,
      fun x => Iff.rfl, fun c hc => absurd hc (List.not_mem_nil c),
      fun x hx => Or.inl hx⟩
  | cons c cs ihcs =>
    intro t hlt hvf hInv hgray
    have hc : c < v := hlt c (List.mem_cons_self c cs)
    have h1 := IH c t (Nat.lt_of_lt_of_le hc hvf) hInv
      (fun x hx hnx => Nat.le_of_lt (Nat.lt_of_lt_of_le hc (hgray x hx hnx)))
    obtain ⟨hInv1, hvis1, ⟨tl1, htopo1⟩, hgiff1, hcpost1, hreach1⟩ := h1
    set t1 := buildAux g fuel c t with ht1
    have hcin1 : c ∈ t1.topo := by
      rcases hcpost1 with h | ⟨hcv, hcnt⟩
      · exact h
      · exact absurd (hgray c hcv hcnt) (Nat.not_le_of_lt hc)
    have h2 := ihcs t1 (fun c' hc' => hlt c' (List.mem_cons_of_mem c hc')) hvf
      hInv1 (fun x hx hnx => hgray x ((hgiff1 x).mp ⟨hx, hnx⟩).1
        ((hgiff1 x).mp ⟨hx, hnx⟩).2)
    obtain ⟨hInv2, hvis2, ⟨tl2, htopo2⟩, hgiff2, hcpost2, hreach2⟩ := h2
    have hstep : (c :: cs).foldl (fun acc c => buildAux g fuel c acc) t
        = cs.foldl (fun acc c => buildAux g fuel c acc) t1 := by
      rw [List.foldl_cons]
    rw [hstep]
    refine ⟨hInv2, fun x hx => hvis2 x (hvis1 x hx),
      ⟨tl1 ++ tl2, by rw [htopo2, htopo1, List.append_assoc]⟩,
      fun x => (hgiff2 x).trans (hgiff1 x), ?_, ?_⟩
    · intro c' hc'
      rcases List.mem_cons.mp hc' with h | h
      · subst h
        rw [htopo2]
        exact List.mem_append_left _ hcin1
      · exact hcpost2 c' h
    · intro x hx
      rcases hreach2 x hx with h | ⟨c', hc', hr⟩
      · rcases hreach1 x h with h' | hr
        · exact Or.inl h'
        · exact Or.inr ⟨c, List.mem_cons_self c cs, hr⟩
      · exact Or.inr ⟨c', List.mem_cons_of_mem c hc', hr⟩

theorem buildAux_spec (g : Graph α) :
    ∀ (fuel v : Nat) (s : BState), v < fuel → Inv g s →
      (∀ x ∈ s.visited, x ∉ s.topo → v ≤ x) →
      BuildPost g v s (buildAux g fuel v s) := by
  intro fuel
  induction fuel with
  | zero => intro v s hv; exact absurd hv (Nat.not_lt_zero v)
  | succ fuel ihf =>
    intro v s hvf hInv hgray
    by_cases hv : v ∈ s.visited
    · have hunf : buildAux g (fuel + 1) v s = s := by
        simp only [buildAux]
        rw [if_pos hv]
      rw [hunf]
      refine ⟨hInv, fun x hx => hx, ⟨[], (List.append_nil _).symm⟩,
        fun x => Iff.rfl, ?_, fun x hx => Or.inl hx⟩
      by_cases hvt : v ∈ s.topo
      · exact Or.inl hvt
      · exact Or.inr ⟨hv, hvt⟩
    · set s1 : BState := ⟨v :: s.visited, s.topo⟩ with hs1
      set t' := (g.childIdxs v).foldl (fun acc c => buildAux g fuel c acc) s1
        with ht'
      have hunf : buildAux g (fuel + 1) v s = ⟨t'.visited, t'.topo ++ [v]⟩ := by
        simp only [buildAux]
        rw [if_neg hv]
      have hInv1 : Inv g s1 := by
        refine ⟨hInv.1, fun x hx => List.mem_cons_of_mem v (hInv.2.1 x hx),
          hInv.2.2⟩
      have hgray1 : ∀ x ∈ s1.visited, x ∉ s1.topo → v ≤ x := by
        intro x hx hnx
        rcases List.mem_cons.mp hx with h | h
        · exact Nat.le_of_eq h.symm
        · exact hgray x h hnx
      have hfold := foldAux_spec g fuel v ihf (g.childIdxs v) s1
        (fun c hc => g.childIdxs_lt hc) (Nat.le_of_lt_succ hvf) hInv1 hgray1
      obtain ⟨hInv2, hvis2, ⟨tl2, htopo2⟩, hgiff2, hcpost2, hreach2⟩ := hfold
      have hvnt : v ∉ t'.topo := by
        intro hvt
        rcases hreach2 v hvt with h | ⟨c, hc, hr⟩
        · exact hv (hInv.2.1 v h)
        · exact absurd (Reach.le hr) (Nat.not_le_of_lt (g.childIdxs_lt hc))
      rw [hunf]
      refine ⟨?_, ?_, ?_, ?_, ?_, ?_⟩
      · refine ⟨?_, ?_, ?_⟩
        · rw [List.nodup_append]
          exact ⟨hInv2.1, List.nodup_singleton v,
            fun x hx hxv => hvnt ((List.mem_singleton.mp hxv) ▸ hx)⟩
        · intro x hx
          rcases List.mem_append.mp hx with h | h
          · exact hInv2.2.1 x h
          · rw [List.mem_singleton.mp h]
            exact hvis2 v (List.mem_cons_self v s.visited)
        · intro x hx c hcx
          rcases List.mem_append.mp hx with h | h
          · obtain ⟨hmem, hbef⟩ := hInv2.2.2 x h c hcx
            exact ⟨List.mem_append_left _ hmem, hbef.append_right⟩
          · rw [List.mem_singleton.mp h] at hcx ⊢
            have hmem := hcpost2 c hcx
            exact ⟨List.mem_append_left _ hmem, Before.snoc hmem⟩
      · intro x hx
        exact hvis2 x (List.mem_cons_of_mem v hx)
      · exact ⟨tl2 ++ [v], by
          show t'.topo ++ [v] = s.topo ++ (tl2 ++ [v])
          rw [htopo2]
          show (s1.topo ++ tl2) ++ [v] = s.topo ++ (tl2 ++ [v])
          rw [List.append_assoc]⟩
      · intro x
        constructor
        · rintro ⟨hxv, hxt⟩
          have hxnt : x ∉ t'.topo := fun h => hxt (List.mem_append_left _ h)
          have hxne : x ≠ v := fun h =>
            hxt (List.mem_append_right _ (h ▸ List.mem_singleton_self v))
          have := (hgiff2 x).mp ⟨hxv, hxnt⟩
          rcases List.mem_cons.mp this.1 with h | h
          · exact absurd h hxne
          · exact ⟨h, this.2⟩
        · rintro ⟨hxv, hxt⟩
          have hxne : x ≠ v := fun h => hv (h ▸ hxv)
          have := (hgiff2 x).mpr ⟨List.mem_cons_of_mem v hxv, hxt⟩
          refine ⟨this.1, ?_⟩
          intro hmem
          rcases List.mem_append.mp hmem with h | h
          · exact this.2 h
          · exact hxne (List.mem_singleton.mp h)
      · exact Or.inl (List.mem_append_right _ (List.mem_singleton_self v))
      · intro x hx
        rcases List.mem_append.mp hx with h | h
        · rcases hreach2 x h with h' | ⟨c, hc, hr⟩
          · exact Or.inl h'
          · exact Or.inr (hr.trans (Reach.step Reach.refl hc))
        · rw [List.mem_singleton.mp h]
          exact Or.inr Reach.refl

/-- The facts the gradient phase needs about the post-order list produced
by the traversal: no duplicates, closure under operand edges with operands
listed first, and membership exactly for the nodes reachable from the
output. -/
theorem buildTopo_spec (g : Graph α) (out : Nat) :
    (buildTopo g out).topo.Nodup ∧
    (∀ x ∈ (buildTopo g out).topo, ∀ c ∈ g.childIdxs x,
      c ∈ (buildTopo g out).topo ∧ Before (buildTopo g out).topo c x) ∧
    (∀ x, x ∈ (buildTopo g out).topo ↔ Reach g out x) := by
  have h := buildAux_spec g (out + 1) out ⟨[], []⟩ (Nat.lt_succ_self out)
    ⟨List.nodup_nil, fun x hx => absurd hx (List.not_mem_nil x),
      fun x hx => absurd hx (List.not_mem_nil x)⟩
    (fun x hx => absurd hx (List.not_mem_nil x))
  obtain ⟨hInv, _, _, _, hvpost, hreach⟩ := h
  have hout : out ∈ (buildTopo g out).topo := by
    rcases hvpost with h | ⟨h, _⟩
    · exact h
    · exact absurd h (List.not_mem_nil out)
  refine ⟨hInv.1, hInv.2.2, fun x => ⟨?_, ?_⟩⟩
  · intro hx
    rcases hreach x hx with h | h
    · exact absurd h (List.not_mem_nil x)
    · exact h
  · intro hx
    induction hx with
    | refl => exact hout
    | step hr hc ih => exact (hInv.2.2 _ ih _ hc).1

/-! ## The gradient accumulation phase -/

theorem foldl_update_eq [CommRing α] (w : Nat) (gw : α) :
    ∀ (ps : List (Nat × α)) (f : Nat → α), (∀ p ∈ ps, p.1 ≠ w) → f w = gw →
      ps.foldl (fun f p => Function.update f p.1 (f p.1 + p.2 * f w)) f
        = fun n => f n + listCoeff ps n * gw := by
  intro ps
  induction ps with
  | nil =>
    intro f _ _
    funext n
    simp [listCoeff]
  | cons p ps ih =>
    intro f hne hfw
    rw [List.foldl_cons]
    have hwp : w ≠ p.1 := fun h => hne p (List.mem_cons_self p ps) h.symm
    have hf'w : Function.update f p.1 (f p.1 + p.2 * f w) w = gw := by
      rw [Function.update_noteq hwp]
      exact hfw
    rw [ih _ (fun q hq => hne q (List.mem_cons_of_mem p hq)) hf'w]
    funext n
    by_cases hn : n = p.1
    · rw [hn, Function.update_same]
      have hcoeff : listCoeff (p :: ps) p.1 = p.2 + listCoeff ps p.1 := by
        simp [listCoeff, List.filter_cons]
      rw [hcoeff, hfw]
      ring
    · rw [Function.update_noteq hn]
      have hcoeff : listCoeff (p :: ps) n = listCoeff ps n := by
        have : ¬ (p.1 = n) := fun h => hn h.symm
        simp [listCoeff, List.filter_cons, this]
      rw [hcoeff]

/-- Closed form of one distribution step of Value.backward: it adds, for
every operand n of node w, the total coefficient times the gradient of w
onto the gradient of n, and leaves every other gradient unchanged. -/
theorem gradStep_eq [CommRing α] (g : Graph α) (gr : Nat → α) (w : Nat)
    (hw : ∀ p ∈ g.parentsAt w, p.1 ≠ w) :
    gradStep g gr w = fun n => gr n + coeffTo g w n * gr w :=
  foldl_update_eq w (gr w) (g.parentsAt w) gr hw rfl

theorem mem_childIdxs_of_coeffTo_ne [CommRing α] {g : Graph α} {c n : Nat}
    (h : coeffTo g c n ≠ 0) : n ∈ g.childIdxs c := by
  by_contra hn
  apply h
  have hfil : (g.parentsAt c).filter (fun p => p.1 = n) = [] := by
    rw [List.filter_eq_nil_iff]
    intro p hp
    simp only [decide_eq_true_eq]
    intro hpn
    exact hn (List.mem_map.mpr ⟨p, hp, hpn⟩)
  unfold coeffTo listCoeff
  rw [hfil]
  simp

/-- A node that the output cannot reach has chain-rule derivative 0: no
operand path connects the output to it. -/
theorem delta_of_not_reach [CommRing α] (g : Graph α) (out : Nat) :
    ∀ n : Nat, ¬ Reach g out n → delta g out n = 0 := by
  intro n hn
  rw [delta]
  rw [if_neg (fun h => hn (by rw [h]; exact Reach.refl))]
  rw [zero_add]
  apply Finset.sum_eq_zero
  rintro ⟨c, hc⟩ _
  by_cases hco : coeffTo g c n = 0
  · rw [hco, zero_mul]
  · have hch : n ∈ g.childIdxs c := mem_childIdxs_of_coeffTo_ne hco
    have hnr : ¬ Reach g out c := fun hr => hn (Reach.step hr hch)
    rw [delta_of_not_reach g out c hnr, mul_zero]
termination_by n => g.nodes.length - n
decreasing_by
  have := Finset.mem_Ico.mp hc
  omega

/-- The processed-part sum over any duplicate-free list that contains
every node feeding w coincides with the full adjoint sum of delta. -/
theorem sum_eq_delta_sum [CommRing α] (g : Graph α) (out : Nat)
    (hout : out < g.nodes.length) (w : Nat) (P : List Nat) (hNd : P.Nodup)
    (hPsub : ∀ u ∈ P, Reach g out u)
    (hPcomplete : ∀ c, Reach g out c → w ∈ g.childIdxs c → c ∈ P) :
    (P.map (fun u => coeffTo g u w * delta g out u)).sum
      = ∑ c ∈ Finset.Ico (w + 1) g.nodes.length,
          coeffTo g c w * delta g out c := by
  set f : Nat → α := fun u => coeffTo g u w * delta g out u with hf
  set A := P.toFinset with hA
  set B := Finset.Ico (w + 1) g.nodes.length with hB
  have hAmem : ∀ x, x ∈ A ↔ x ∈ P := fun x => List.mem_toFinset
  have hBmem : ∀ x, x ∈ B ↔ w + 1 ≤ x ∧ x < g.nodes.length :=
    fun x => Finset.mem_Ico
  have hsum1 : (P.map f).sum = ∑ u ∈ A, f u :=
    (List.sum_toFinset f hNd).symm
  have hzeroA : ∀ x ∈ A, x ∉ A ∩ B → f x = 0 := by
    intro x hxA hxAB
    have hxB : x ∉ B := fun h => hxAB (Finset.mem_inter.mpr ⟨hxA, h⟩)
    by_cases hco : coeffTo g x w = 0
    · rw [hf]; simp only; rw [hco, zero_mul]
    · exfalso
      have hch : w ∈ g.childIdxs x := mem_childIdxs_of_coeffTo_ne hco
      have hwx : w < x := g.childIdxs_lt hch
      have hxr : Reach g out x := hPsub x ((hAmem x).mp hxA)
      have hxN : x < g.nodes.length := Nat.lt_of_le_of_lt hxr.le hout
      exact hxB ((hBmem x).mpr ⟨hwx, hxN⟩)
  have hzeroB : ∀ x ∈ B, x ∉ A ∩ B → f x = 0 := by
    intro x hxB hxAB
    have hxA : x ∉ A := fun h => hxAB (Finset.mem_inter.mpr ⟨h, hxB⟩)
    by_cases hco : coeffTo g x w = 0
    · rw [hf]; simp only; rw [hco, zero_mul]
    · have hch : w ∈ g.childIdxs x := mem_childIdxs_of_coeffTo_ne hco
      have hxr : ¬ Reach g out x := fun hr =>
        hxA ((hAmem x).mpr (hPcomplete x hr hch))
      rw [hf]; simp only
      rw [delta_of_not_reach g out x hxr, mul_zero]
  have h1 : ∑ u ∈ A ∩ B, f u = ∑ u ∈ A, f u :=
    Finset.sum_subset Finset.inter_subset_left hzeroA
  have h2 : ∑ u ∈ A ∩ B, f u = ∑ u ∈ B, f u :=
    Finset.sum_subset Finset.inter_subset_right hzeroB
  rw [hsum1, ← h1, h2]

/-- Unfolded recursion of delta, with the attached index sum replaced by a
plain sum over the interval of larger indices. -/
theorem delta_eq_sum [CommRing α] (g : Graph α) (out n : Nat) :
    delta g out n = (if n = out then 1 else 0) +
      ∑ c ∈ Finset.Ico (n + 1) g.nodes.length,
        coeffTo g c n * delta g out c := by
  rw [delta]
  congr 1
  exact Finset.sum_attach (Finset.Ico (n + 1) g.nodes.length)
    (fun c => coeffTo g c n * delta g out c)

/-- A node of the post-order list splits its reversal into a front part
that contains every node it feeds into: the loop of Value.backward therefore
finishes accumulating a gradient before distributing it. -/
theorem feeders_listed_first (g : Graph α) {T P L : List Nat} {w : Nat}
    (hNd : T.Nodup)
    (hclosed : ∀ x ∈ T, ∀ c ∈ g.childIdxs x, c ∈ T ∧ Before T c x)
    (hsplit : T.reverse = P ++ w :: L)
    {c : Nat} (hcT : c ∈ T) (hwc : w ∈ g.childIdxs c) : c ∈ P := by
  have hBef : Before T w c := (hclosed c hcT w hwc).2
  have hBefR : Before T.reverse c w := hBef.reverse
  rw [hsplit] at hBefR
  exact Before.mem_front (hsplit ▸ List.nodup_reverse.mpr hNd) hBefR

/-- Invariant of the reverse-order distribution loop of Value.backward:
after processing the front part P of the reversed post-order list, the
gradient of every node n equals the seed plus the contributions
coefficient times delta of the already-processed nodes. -/
theorem gradFold_eq [CommRing α] (g : Graph α) (out : Nat) (T : List Nat)
    (hNd : T.Nodup)
    (hclosed : ∀ x ∈ T, ∀ c ∈ g.childIdxs x, c ∈ T ∧ Before T c x)
    (hreach : ∀ x, x ∈ T ↔ Reach g out x)
    (hout : out < g.nodes.length) :
    ∀ (L P : List Nat) (gr : Nat → α),
      T.reverse = P ++ L →
      (∀ n, gr n = (if n = out then 1 else 0)
        + (P.map (fun u => coeffTo g u n * delta g out u)).sum) →
      ∀ n, (L.foldl (gradStep g) gr) n
        = (if n = out then 1 else 0)
          + ((P ++ L).map (fun u => coeffTo g u n * delta g out u)).sum := by
  intro L
  induction L with
  | nil =>
    intro P gr _ hinv n
    rw [List.foldl_nil, List.append_nil]
    exact hinv n
  | cons w L ihL =>
    intro P gr hsplit hinv n
    have hPnd : P.Nodup := by
      have h0 : (P ++ w :: L).Nodup := hsplit ▸ List.nodup_reverse.mpr hNd
      exact h0.sublist (List.sublist_append_left P (w :: L))
    have hPsub : ∀ u ∈ P, Reach g out u := by
      intro u hu
      have : u ∈ T.reverse := hsplit ▸ List.mem_append_left _ hu
      exact (hreach u).mp (List.mem_reverse.mp this)
    have hwT : w ∈ T := by
      have : w ∈ T.reverse := hsplit ▸
        List.mem_append_right _ (List.mem_cons_self w L)
      exact List.mem_reverse.mp this
    have hgrw : gr w = delta g out w := by
      rw [hinv w]
      rw [sum_eq_delta_sum g out hout w P hPnd hPsub
        (fun c hcr hwc => feeders_listed_first g hNd hclosed hsplit
          ((hreach c).mpr hcr) hwc)]
      exact (delta_eq_sum g out w).symm
    have hstep : gradStep g gr w
        = fun n => gr n + coeffTo g w n * delta g out w := by
      rw [gradStep_eq g gr w
        (fun p hp => Nat.ne_of_lt (g.parentsAt_lt hp))]
      funext m
      rw [hgrw]
    rw [List.foldl_cons, hstep]
    have hres := ihL (P ++ [w])
      (fun m => gr m + coeffTo g w m * delta g out w)
      (by rw [hsplit, List.append_assoc]; rfl)
      (by
        intro m
        show gr m + coeffTo g w m * delta g out w = _
        rw [hinv m, List.map_append, List.sum_append]
        simp only [List.map_cons, List.map_nil, List.sum_cons, List.sum_nil]
        ring)
      n
    rw [hres, List.append_assoc]
    rfl

/-- Value.backward computes the chain-rule derivative: starting from
all-zero gradients, after the call the gradient of every node equals
delta, the sum over operand paths from the output of the products of the
recorded local gradient coefficients. -/
theorem backward_eq_delta [CommRing α] (g : Graph α) (out : Nat)
    (hout : out < g.nodes.length) :
    ∀ n, backward g out n = delta g out n := by
  obtain ⟨hNd, hclosed, hreach⟩ := buildTopo_spec g out
  intro n
  have hinit : ∀ m, (Function.update (fun _ => (0 : α)) out 1) m
      = (if m = out then 1 else 0)
        + (([] : List Nat).map (fun u => coeffTo g u m * delta g out u)).sum := by
    intro m
    by_cases hm : m = out
    · rw [hm]
      simp [Function.update_same]
    · simp [Function.update_noteq hm, hm]
  have h := gradFold_eq g out (buildTopo g out).topo hNd hclosed hreach hout
    (buildTopo g out).topo.reverse [] (Function.update (fun _ => 0) out 1)
    (List.nil_append _).symm hinit n
  unfold backward backwardFrom
  rw [h, List.nil_append]
  rw [delta_eq_sum g out n]
  congr 1
  exact sum_eq_delta_sum g out hout n (buildTopo g out).topo.reverse
    (List.nodup_reverse.mpr hNd)
    (fun u hu => (hreach u).mp (List.mem_reverse.mp hu))
    (fun c hcr _ => List.mem_reverse.mpr ((hreach c).mpr hcr))

/-! ## List helpers shared by the numeric embeddings -/

theorem getD_set_self {β : Type} (l : List β) (i : Nat) (a d : β)
    (h : i < l.length) : (l.set i a).getD i d = a := by
  simp [List.getD, List.getElem?_set_self, h]

theorem getD_set_ne {β : Type} (l : List β) {i j : Nat} (a d : β)
    (h : i ≠ j) : (l.set i a).getD j d = l.getD j d := by
  simp [List.getD, List.getElem?_set_ne h]

theorem foldl_add_from {β : Type} (f : β → ℝ) :
    ∀ (l : List β) (a : ℝ), l.foldl (fun s x => s + f x) a = a + (l.map f).sum := by
  intro l
  induction l with
  | nil => intro a; simp
  | cons x t ih =>
    intro a
    rw [List.foldl_cons, ih, List.map_cons, List.sum_cons]
    ring

/-- JavaScript Array.prototype.reduce with the add callback and no initial
value: the head seeds the fold (the source never calls it on an empty
array; the 0 returned here for the empty list is unreachable). -/
def reduceAddD (l : List ℝ) : ℝ :=
  match l with
  | [] => 0
  | h :: t => t.foldl (· + ·) h

theorem reduceAddD_eq_sum (l : List ℝ) : reduceAddD l = l.sum := by
  cases l with
  | nil => simp [reduceAddD]
  | cons h t =>
    show t.foldl (· + ·) h = (h :: t).sum
    have := foldl_add_from (fun x : ℝ => x) t h
    simpa using this

/-- JavaScript Math.max over a spread array, seeded at the head (the source
only applies it to nonempty logit vectors; 0 for the empty list is
unreachable). -/
def maxD (l : List ℝ) : ℝ :=
  match l with
  | [] => 0
  | h :: t => t.foldl max h

theorem foldl_max_add (c : ℝ) :
    ∀ (l : List ℝ) (a : ℝ),
      (l.map (fun v => v + c)).foldl max (a + c) = l.foldl max a + c := by
  intro l
  induction l with
  | nil => intro a; simp
  | cons x t ih =>
    intro a
    rw [List.map_cons, List.foldl_cons, List.foldl_cons, max_add_add_right, ih]

theorem maxD_map_add (c : ℝ) (l : List ℝ) (hl : l ≠ []) :
    maxD (l.map (fun v => v + c)) = maxD l + c := by
  cases l with
  | nil => exact absurd rfl hl
  | cons h t =>
    show (t.map (fun v => v + c)).foldl max (h + c) = t.foldl max h + c
    exact foldl_max_add c t h

theorem map_range_getD {β γ : Type} (f : β → γ) (d : β) :
    ∀ l : List β,
      (List.range l.length).map (fun t => f (l.getD t d)) = l.map f := by
  intro l
  induction l with
  | nil => simp
  | cons x t ih =>
    simp only [List.length_cons, List.range_succ_eq_map, List.map_cons,
      List.map_map]
    show f x :: (List.range t.length).map (fun i => f (t.getD i d))
        = f x :: t.map f
    rw [ih]

theorem map_range_zipWith {β γ δ : Type} (f : β → γ → δ) (du : β) (dv : γ) :
    ∀ (n : Nat) (u : List β) (v : List γ), u.length = n → v.length = n →
      (List.range n).map (fun t => f (u.getD t du) (v.getD t dv))
        = List.zipWith f u v := by
  intro n
  induction n with
  | zero =>
    intro u v hu hv
    rw [List.length_eq_zero] at hu hv
    subst hu; subst hv
    simp
  | succ n ih =>
    intro u v hu hv
    cases u with
    | nil => simp at hu
    | cons x u' =>
      cases v with
      | nil => simp at hv
      | cons y v' =>
        simp only [List.range_succ_eq_map, List.map_cons, List.map_map]
        show f x y :: (List.range n).map
            (fun i => f (u'.getD i du) (v'.getD i dv))
          = f x y :: List.zipWith f u' v'
        rw [ih u' v' (by simpa using hu) (by simpa using hv)]

/-! ## Tree view of class Value and its differentiable operators -/

noncomputable section

/-- One application of a Value constructor (src/gpt.ts lines 41 to 51):
the stored data, the operand list _children and the coefficient list
_localGrads.  The tree view is adequate for the operator claims, which
only concern the node returned by a single operator application. -/
inductive Value : Type
  | mk : ℝ → List Value → List ℝ → Value

namespace Value

def data : Value → ℝ
  | .mk d _ _ => d

def children : Value → List Value
  | .mk _ c _ => c

def localGrads : Value → List ℝ
  | .mk _ _ l => l

/-- new Value(number): the wrapping of a raw number operand, a constant
leaf with empty operand list (src/gpt.ts lines 54, 59, 89). -/
def ofNum (r : ℝ) : Value := .mk r [] []

/-- src/gpt.ts lines 53 to 56. -/
def add (a b : Value) : Value := .mk (a.data + b.data) [a, b] [1, 1]

/-- add with a raw number operand, which the source wraps first. -/
def addNum (a : Value) (r : ℝ) : Value := a.add (ofNum r)

/-- src/gpt.ts lines 58 to 61. -/
def mul (a b : Value) : Value := .mk (a.data * b.data) [a, b] [b.data, a.data]

/-- mul with a raw number operand, which the source wraps first. -/
def mulNum (a : Value) (r : ℝ) : Value := a.mul (ofNum r)

/-- src/gpt.ts lines 63 to 65; the JavaScript ** operator on a real
exponent is embedded as the real power. -/
def pow (a : Value) (p : ℝ) : Value :=
  .mk (a.data ^ p) [a] [p * a.data ^ (p - 1)]

/-- src/gpt.ts lines 67 to 69. -/
def log (a : Value) : Value := .mk (Real.log a.data) [a] [1 / a.data]

/-- src/gpt.ts lines 71 to 74. -/
def exp (a : Value) : Value := .mk (Real.exp a.data) [a] [Real.exp a.data]

/-- src/gpt.ts lines 76 to 78. -/
def relu (a : Value) : Value :=
  .mk (max 0 a.data) [a] [if a.data > 0 then 1 else 0]

/-- The logistic function, used by silu. -/
def sigmoid (x : ℝ) : ℝ := 1 / (1 + Real.exp (-x))

/-- Modelled from the spec: the silu operator of the Value class lives in
src/core/value.ts, which is not part of the supplied sources; the spec
table of section 4.1 gives its result a.data * sigmoid(a.data) and local
gradient sigmoid(a.data) * (1 + a.data * (1 - sigmoid(a.data))). -/
def silu (a : Value) : Value :=
  .mk (a.data * sigmoid a.data) [a]
    [sigmoid a.data * (1 + a.data * (1 - sigmoid a.data))]

/-- src/gpt.ts lines 80 to 82: derived as mul by the wrapped constant -1. -/
def neg (a : Value) : Value := a.mul (ofNum (-1))

/-- src/gpt.ts lines 84 to 86, Value operand case. -/
def sub (a b : Value) : Value := a.add b.neg

/-- src/gpt.ts lines 84 to 86, raw number operand case: the source negates
the number and adds, wrapping the negated number as a constant leaf. -/
def subNum (a : Value) (r : ℝ) : Value := a.add (ofNum (-r))

/-- src/gpt.ts lines 88 to 91: derived as mul by pow(-1). -/
def div (a b : Value) : Value := a.mul (b.pow (-1))

@[simp] theorem data_mk (d : ℝ) (c : List Value) (l : List ℝ) :
    (Value.mk d c l).data = d := rfl

@[simp] theorem data_ofNum (r : ℝ) : (ofNum r).data = r := rfl

@[simp] theorem data_add (a b : Value) : (a.add b).data = a.data + b.data := rfl

@[simp] theorem data_mul (a b : Value) : (a.mul b).data = a.data * b.data := rfl

@[simp] theorem data_pow (a : Value) (p : ℝ) : (a.pow p).data = a.data ^ p := rfl

@[simp] theorem data_log (a : Value) : a.log.data = Real.log a.data := rfl

@[simp] theorem data_exp (a : Value) : a.exp.data = Real.exp a.data := rfl

@[simp] theorem data_neg (a : Value) : a.neg.data = a.data * (-1) := rfl

@[simp] theorem data_subNum (a : Value) (r : ℝ) :
    (a.subNum r).data = a.data + (-r) := rfl

/-- The data of div is real division: pow(-1) stores the real power at
exponent -1, which equals the real inverse (also at 0, where the model
sets both sides to 0 while JavaScript produces Infinity; the spec rules
division by a zero-valued node out). -/
theorem data_div (a b : Value) : (a.div b).data = a.data / b.data := by
  show a.data * b.data ^ (-1 : ℝ) = a.data / b.data
  rw [Real.rpow_neg_one, div_eq_mul_inv]

end Value

/-! ## softmax, at the node level and at the data level -/

/-- JavaScript reduce with the Value add callback and no initial value,
as used for the exponential total of softmax (src/gpt.ts line 203). -/
def reduceAddV (l : List Value) : Value :=
  match l with
  | [] => Value.ofNum 0
  | h :: t => t.foldl Value.add h

theorem data_foldl_addV :
    ∀ (t : List Value) (h : Value),
      (t.foldl Value.add h).data = (t.map Value.data).foldl (· + ·) h.data := by
  intro t
  induction t with
  | nil => intro h; rfl
  | cons x t ih =>
    intro h
    rw [List.foldl_cons, List.map_cons, List.foldl_cons, ih]
    rfl

theorem data_reduceAddV (l : List Value) :
    (reduceAddV l).data = reduceAddD (l.map Value.data) := by
  cases l with
  | nil => rfl
  | cons h t => exact data_foldl_addV t h

/-- The softmax of src/gpt.ts lines 200 to 205, at the node level: the
maximum of the raw data values is computed as a plain number (not a node)
and subtracted from every logit, each shifted logit is exponentiated, and
each exponential node is divided by their reduce-add total. -/
def softmaxV (logits : List Value) : List Value :=
  let maxVal := maxD (logits.map Value.data)
  let exps := logits.map (fun v => (v.subNum maxVal).exp)
  let total := reduceAddV exps
  exps.map (fun e => e.div total)

/-- The same computation on the data fields. -/
def softmaxD (logits : List ℝ) : List ℝ :=
  let maxVal := maxD logits
  let exps := logits.map (fun v => Real.exp (v - maxVal))
  let total := reduceAddD exps
  exps.map (fun e => e / total)

theorem softmaxD_length (l : List ℝ) : (softmaxD l).length = l.length := by
  simp [softmaxD]

/-- The node-level softmax computes, on data fields, exactly the data-level
softmax. -/
theorem softmaxV_data (l : List Value) :
    (softmaxV l).map Value.data = softmaxD (l.map Value.data) := by
  unfold softmaxV softmaxD
  simp only
  set m := maxD (l.map Value.data) with hm
  have hexps : (l.map (fun v => (v.subNum m).exp)).map Value.data
      = (l.map Value.data).map (fun v => Real.exp (v - m)) := by
    rw [List.map_map, List.map_map]
    apply List.map_congr_left
    intro v _
    show ((v.subNum m).exp).data = Real.exp (v.data - m)
    rw [Value.data_exp, Value.data_subNum, sub_eq_add_neg]
  have htot : (reduceAddV (l.map (fun v => (v.subNum m).exp))).data
      = reduceAddD ((l.map Value.data).map (fun v => Real.exp (v - m))) := by
    rw [data_reduceAddV, hexps]
  rw [List.map_map] at htot
  simp only [List.map_map]
  apply List.map_congr_left
  intro v _
  simp only [Function.comp_apply]
  rw [Value.data_div, htot, Value.data_exp, Value.data_subNum, sub_eq_add_neg]

theorem softmaxD_total_pos (l : List ℝ) (hl : l ≠ []) :
    0 < reduceAddD (l.map (fun v => Real.exp (v - maxD l))) := by
  rw [reduceAddD_eq_sum]
  apply List.sum_pos
  · intro x hx
    rcases List.mem_map.mp hx with ⟨v, _, hv⟩
    exact hv ▸ Real.exp_pos _
  · intro h
    exact hl (List.map_eq_nil_iff.mp h)

theorem softmaxD_pos_le (l : List ℝ) (hl : l ≠ []) :
    ∀ e ∈ softmaxD l, 0 < e ∧ e ≤ 1 := by
  intro e he
  unfold softmaxD at he
  simp only at he
  set exps := l.map (fun v => Real.exp (v - maxD l)) with hexps
  have htot : 0 < reduceAddD exps := softmaxD_total_pos l hl
  rcases List.mem_map.mp he with ⟨x, hx, hxe⟩
  have hxpos : 0 < x := by
    rcases List.mem_map.mp hx with ⟨v, _, hv⟩
    exact hv ▸ Real.exp_pos _
  have hxle : x ≤ reduceAddD exps := by
    rw [reduceAddD_eq_sum]
    apply List.single_le_sum _ x hx
    intro y hy
    rcases List.mem_map.mp hy with ⟨v, _, hv⟩
    exact le_of_lt (hv ▸ Real.exp_pos _)
  constructor
  · exact hxe ▸ div_pos hxpos htot
  · rw [← hxe]
    exact (div_le_one htot).mpr hxle

theorem softmaxD_sum (l : List ℝ) (hl : l ≠ []) : (softmaxD l).sum = 1 := by
  unfold softmaxD
  simp only
  set exps := l.map (fun v => Real.exp (v - maxD l)) with hexps
  have htot : 0 < reduceAddD exps := softmaxD_total_pos l hl
  have hmap : exps.map (fun e => e / reduceAddD exps)
      = exps.map (fun e => e * (reduceAddD exps)⁻¹) := by
    apply List.map_congr_left
    intro e _
    rw [div_eq_mul_inv]
  rw [hmap]
  have h2 : (exps.map (fun e => e * (reduceAddD exps)⁻¹)).sum
      = exps.sum * (reduceAddD exps)⁻¹ := by
    simpa using List.sum_map_mul_right exps (fun e => e) (reduceAddD exps)⁻¹
  rw [h2, reduceAddD_eq_sum] at *
  exact mul_inv_cancel₀ (ne_of_gt htot)

theorem softmaxD_shift (l : List ℝ) (hl : l ≠ []) (c : ℝ) :
    softmaxD (l.map (fun v => v + c)) = softmaxD l := by
  unfold softmaxD
  simp only
  rw [maxD_map_add c l hl]
  have hexps : (l.map (fun v => v + c)).map
      (fun v => Real.exp (v - (maxD l + c)))
      = l.map (fun v => Real.exp (v - maxD l)) := by
    rw [List.map_map]
    apply List.map_congr_left
    intro v _
    show Real.exp (v + c - (maxD l + c)) = Real.exp (v - maxD l)
    ring_nf
  rw [hexps]

/-! ## RMS normalization (src/gpt.ts lines 207 to 214) -/

/-- Mean square of a data vector: the reduce-add of the squares divided by
the length, exactly as the source computes ms. -/
def msD (x : List ℝ) : ℝ :=
  reduceAddD (x.map (fun xi => xi * xi)) / (x.length : ℝ)

/-- The rmsnorm computation with the epsilon as a parameter; the source
hardcodes epsilon = 1e-5 (line 212), see rmsnorm below.  scale is the
power -0.5 of ms + epsilon and every entry is multiplied by scale. -/
def rmsnormGen (eps : ℝ) (x : List ℝ) : List ℝ :=
  x.map (fun xi => xi * (msD x + eps) ^ (-(0.5) : ℝ))

/-- The rmsnorm of the source, on data fields. -/
def rmsnorm (x : List ℝ) : List ℝ := rmsnormGen (1e-5) x

theorem msD_nonneg (x : List ℝ) : 0 ≤ msD x := by
  unfold msD
  rw [reduceAddD_eq_sum]
  apply div_nonneg
  · apply List.sum_nonneg
    intro y hy
    rcases List.mem_map.mp hy with ⟨v, _, hv⟩
    exact hv ▸ mul_self_nonneg v
  · exact Nat.cast_nonneg _

theorem rpow_half_sq {t : ℝ} (ht : 0 < t) :
    t ^ (-(0.5) : ℝ) * t ^ (-(0.5) : ℝ) = t⁻¹ := by
  rw [← Real.rpow_add ht]
  rw [show (-(0.5 : ℝ)) + -(0.5 : ℝ) = -1 by norm_num, Real.rpow_neg_one]

/-- The mean square of the rmsnorm output is ms divided by ms + epsilon. -/
theorem msD_rmsnorm (x : List ℝ) :
    msD (rmsnorm x) = msD x / (msD x + 1e-5) := by
  have hpos : (0 : ℝ) < msD x + 1e-5 := by
    have := msD_nonneg x
    have h5 : (0 : ℝ) < 1e-5 := by norm_num
    linarith
  unfold rmsnorm rmsnormGen msD
  simp only [List.length_map, List.map_map]
  set s := (msD x + 1e-5) ^ (-(0.5) : ℝ) with hs
  have hsq : (x.map (fun xi => (xi * s) * (xi * s))) =
      x.map (fun xi => (xi * xi) * (s * s)) := by
    apply List.map_congr_left
    intro v _
    ring
  show reduceAddD (x.map fun xi => (xi * s) * (xi * s)) / (x.length : ℝ)
      = msD x / (msD x + 1e-5)
  rw [hsq, reduceAddD_eq_sum, List.sum_map_mul_right, rpow_half_sq hpos]
  rw [mul_div_right_comm]
  rw [div_eq_mul_inv (msD x), ← reduceAddD_eq_sum]
  rfl

/-- Exact form of the epsilon error: the gap between 1 and the output mean
square is epsilon over ms + epsilon. -/
theorem rmsnorm_gap (x : List ℝ) :
    1 - msD (rmsnorm x) = 1e-5 / (msD x + 1e-5) := by
  have hpos : (0 : ℝ) < msD x + 1e-5 := by
    have := msD_nonneg x
    have h5 : (0 : ℝ) < 1e-5 := by norm_num
    linarith
  rw [msD_rmsnorm]
  field_simp

/-- With the epsilon term removed, rmsnorm is exactly invariant under
multiplication of the input by a positive constant. -/
theorem rmsnormGen_zero_scale (c : ℝ) (hc : 0 < c) (x : List ℝ) :
    rmsnormGen 0 (x.map (fun xi => c * xi)) = rmsnormGen 0 x := by
  have hms : msD (x.map (fun xi => c * xi)) = (c * c) * msD x := by
    unfold msD
    simp only [List.length_map, List.map_map]
    have hsq : x.map ((fun xi => xi * xi) ∘ fun xi => c * xi)
        = x.map (fun xi => (xi * xi) * (c * c)) := by
      apply List.map_congr_left
      intro v _
      show (c * v) * (c * v) = (v * v) * (c * c)
      ring
    rw [hsq, reduceAddD_eq_sum, List.sum_map_mul_right, ← reduceAddD_eq_sum]
    rw [mul_div_right_comm, mul_comm]
  have hcc : (0 : ℝ) ≤ c * c := mul_self_nonneg c
  have hsplit : ((c * c) * msD x) ^ (-(0.5) : ℝ)
      = c⁻¹ * (msD x) ^ (-(0.5) : ℝ) := by
    rw [Real.mul_rpow hcc (msD_nonneg x)]
    congr 1
    have h2 : (c * c) = c ^ ((2 : ℕ) : ℝ) := by
      rw [Real.rpow_natCast]
      ring
    rw [h2, ← Real.rpow_mul (le_of_lt hc)]
    norm_num
    exact Real.rpow_neg_one c
  unfold rmsnormGen
  rw [List.map_map, hms]
  apply List.map_congr_left
  intro v _
  show c * v * (((c * c) * msD x + 0) ^ (-(0.5) : ℝ))
      = v * ((msD x + 0) ^ (-(0.5) : ℝ))
  rw [add_zero, add_zero, hsplit]
  have hr : c * v * (c⁻¹ * msD x ^ (-(0.5) : ℝ))
      = (c * c⁻¹) * (v * msD x ^ (-(0.5) : ℝ)) := by ring
  rw [hr, mul_inv_cancel₀ (ne_of_gt hc), one_mul]

/-! ## Remaining numeric primitives, on data fields -/

/-- Vectors and matrices of data values. -/
abbrev Vec : Type := List ℝ

abbrev Mat : Type := List (List ℝ)

/-- The linear projection of src/gpt.ts lines 194 to 198 (the identical
routine of src/core/ops.ts is consumed by the Llama and Deepseek models):
each weight row is dotted with the input by a running add chain seeded at
0; the row drives the iteration, reading x positionally, which zipWith
renders faithfully at the spec shapes (row length equals x length). -/
def linearD (x : Vec) (w : Mat) : Vec :=
  w.map (fun row => (List.zipWith (fun wi xi => wi * xi) row x).foldl (· + ·) 0)

/-- JavaScript Array.prototype.slice(hs, hs + n). -/
def sliceL (l : Vec) (hs n : Nat) : Vec := (l.drop hs).take n

/-- Dot product in the gpt attention style (src/gpt.ts lines 247 to 252):
map the query entries onto products with the key entries, then reduce-add
with the head seeding the fold. -/
def dotRed (a b : Vec) : ℝ := reduceAddD (List.zipWith (fun x y => x * y) a b)

/-- Dot product in the Llama and Deepseek style (index loop accumulating
into a node seeded at 0, src/src/models/llama.ts lines 115 to 119). -/
def dotLoop (d : Nat) (a b : Vec) : ℝ :=
  (List.range d).foldl (fun s j => s + a.getD j 0 * b.getD j 0) 0

/-- The data of silu. -/
def siluD (x : ℝ) : ℝ := x * Value.sigmoid x

/-- Modelled from the spec: apply_rope lives in src/core/ops.ts, which is
not part of the supplied sources; spec section 4.3 defines it as the
pairwise rotation of a vector of even length d at angle theta_i times
position with theta_i = 10000 to the power -2i/d. -/
def apply_rope (x : Vec) (pos : Nat) (d : Nat) : Vec :=
  (List.range (d / 2)).flatMap (fun i =>
    let theta : ℝ := (10000 : ℝ) ^ (-((2 * (i : ℝ)) / (d : ℝ)))
    let a : ℝ := theta * (pos : ℝ)
    [x.getD (2 * i) 0 * Real.cos a - x.getD (2 * i + 1) 0 * Real.sin a,
     x.getD (2 * i) 0 * Real.sin a + x.getD (2 * i + 1) 0 * Real.cos a])

theorem flatMap_pairs :
    ∀ (k : Nat) (x : Vec), x.length = 2 * k →
      (List.range k).flatMap
          (fun i => [x.getD (2 * i) 0, x.getD (2 * i + 1) 0]) = x := by
  intro k
  induction k with
  | zero =>
    intro x hx
    rw [Nat.mul_zero] at hx
    rw [List.length_eq_zero] at hx
    subst hx
    rfl
  | succ k ih =>
    intro x hx
    cases x with
    | nil => simp at hx
    | cons a x' =>
      cases x' with
      | nil => simp at hx; omega
      | cons b x'' =>
        rw [List.range_succ_eq_map]
        rw [List.flatMap_cons, List.flatMap_map]
        show [a, b] ++ (List.range k).flatMap
            (fun i => [x''.getD (2 * i) 0, x''.getD (2 * i + 1) 0])
          = a :: b :: x''
        rw [ih x'' (by simp at hx; omega)]
        rfl

/-- At position 0 the rotation angle is 0 for every pair, so RoPE is the
identity on vectors of the matching even length. -/
theorem apply_rope_zero (d : Nat) (x : Vec) (hx : x.length = d)
    (hd : d % 2 = 0) : apply_rope x 0 d = x := by
  unfold apply_rope
  have hcong : ∀ i ∈ List.range (d / 2),
      (fun (i : Nat) =>
        let theta : ℝ := (10000 : ℝ) ^ (-((2 * (i : ℝ)) / (d : ℝ)))
        let a : ℝ := theta * ((0 : Nat) : ℝ)
        [x.getD (2 * i) 0 * Real.cos a - x.getD (2 * i + 1) 0 * Real.sin a,
         x.getD (2 * i) 0 * Real.sin a + x.getD (2 * i + 1) 0 * Real.cos a]) i
      = (fun (i : Nat) => [x.getD (2 * i) 0, x.getD (2 * i + 1) 0]) i := by
    intro i _
    simp only [Nat.cast_zero, mul_zero, Real.cos_zero, Real.sin_zero]
    norm_num
  show ((List.range (d / 2)).map (fun (i : Nat) =>
      let theta : ℝ := (10000 : ℝ) ^ (-((2 * (i : ℝ)) / (d : ℝ)))
      let a : ℝ := theta * ((0 : Nat) : ℝ)
      [x.getD (2 * i) 0 * Real.cos a - x.getD (2 * i + 1) 0 * Real.sin a,
       x.getD (2 * i) 0 * Real.sin a + x.getD (2 * i + 1) 0 * Real.cos a])).flatten
    = x
  rw [List.map_congr_left hcong]
  exact flatMap_pairs (d / 2) x (by omega)

/-! ## Variant A: the gpt function of src/gpt.ts (lines 216 to 276) -/

structure GPTConfig where
  n_embd : Nat
  n_head : Nat
  n_layer : Nat
  block_size : Nat

/-- head_dim = n_embd / n_head (src/gpt.ts line 156). -/
def GPTConfig.head_dim (c : GPTConfig) : Nat := c.n_embd / c.n_head

/-- The parameter store of the gpt model: the named matrices of the state
record; per-layer matrices are indexed by the layer number. -/
structure GPTState where
  wte : Mat
  wpe : Mat
  lm_head : Mat
  attn_wq : Nat → Mat
  attn_wk : Nat → Mat
  attn_wv : Nat → Mat
  attn_wo : Nat → Mat
  mlp_fc1 : Nat → Mat
  mlp_fc2 : Nat → Mat

/-- One attention head of the gpt function (src/gpt.ts lines 240 to 261):
slice the query and every cached key and value at the head offset, compute
the scaled dot-product logits, softmax them, and form the weighted sums of
the cached value slices. -/
def gptAttnHead (hd : Nat) (q : Vec) (hs : Nat) (kc vc : List Vec) : Vec :=
  let qh := sliceL q hs hd
  let kh := kc.map (fun kk => sliceL kk hs hd)
  let vh := vc.map (fun vv => sliceL vv hs hd)
  let logits := kh.map (fun kt => dotRed qh kt / Real.sqrt (hd : ℝ))
  let weights := softmaxD logits
  (List.range hd).map (fun j =>
    reduceAddD (List.zipWith (fun wt vt => wt * vt.getD j 0) weights vh))

/-- One transformer layer of the gpt function (src/gpt.ts lines 227 to
273): pre-norm attention with the key and value pushed onto the per-layer
caches before the head loop, output projection, residual, then the
squared-relu MLP with its own residual. -/
def gptLayer (st : GPTState) (cfg : GPTConfig) (li : Nat) (x0 : Vec)
    (kc vc : List Vec) : Vec × List Vec × List Vec :=
  let x1 := rmsnorm x0
  let q := linearD x1 (st.attn_wq li)
  let k := linearD x1 (st.attn_wk li)
  let v := linearD x1 (st.attn_wv li)
  let kc2 := kc ++ [k]
  let vc2 := vc ++ [v]
  let x_attn := (List.range cfg.n_head).flatMap
    (fun h => gptAttnHead cfg.head_dim q (h * cfg.head_dim) kc2 vc2)
  let x2 := linearD x_attn (st.attn_wo li)
  let x3 := List.zipWith (· + ·) x2 x0
  let x4 := rmsnorm x3
  let x5 := linearD x4 (st.mlp_fc1 li)
  let x6 := x5.map (fun xi => (max 0 xi) ^ ((2 : ℕ) : ℝ))
  let x7 := linearD x6 (st.mlp_fc2 li)
  (List.zipWith (· + ·) x7 x3, kc2, vc2)

/-- The layer loop, reading and writing the per-layer cache slots. -/
def gptLayers (st : GPTState) (cfg : GPTConfig) :
    List Nat → Vec → List (List Vec) → List (List Vec) →
      Vec × List (List Vec) × List (List Vec)
  | [], x, ks, vs => (x, ks, vs)
  | li :: rest, x, ks, vs =>
    let r := gptLayer st cfg li x (ks.getD li []) (vs.getD li [])
    gptLayers st cfg rest r.1 (ks.set li r.2.1) (vs.set li r.2.2)

/-- The gpt forward pass: token embedding plus position embedding,
normalize, run the layers, project to logits; returns the logits together
with the caches after their per-call append. -/
def gptForward (st : GPTState) (cfg : GPTConfig) (tok pos : Nat)
    (keys values : List (List Vec)) :
    Vec × List (List Vec) × List (List Vec) :=
  let x0 := List.zipWith (· + ·) (st.wte.getD tok []) (st.wpe.getD pos [])
  let x1 := rmsnorm x0
  let r := gptLayers st cfg (List.range cfg.n_layer) x1 keys values
  (linearD r.1 st.lm_head, r.2.1, r.2.2)

/-- k forward calls of the gpt model against an initially empty cache, as
the training and generation loops perform them (token stream toks, one
position per call). -/
def gptRun (st : GPTState) (cfg : GPTConfig) (toks : Nat → Nat) :
    Nat → List (List Vec) × List (List Vec)
  | 0 => (List.replicate cfg.n_layer [], List.replicate cfg.n_layer [])
  | k + 1 =>
    let p := gptRun st cfg toks k
    let r := gptForward st cfg (toks k) k p.1 p.2
    (r.2.1, r.2.2)

/-! ## Variant B: the Llama class of src/src/models/llama.ts -/

structure LlamaConfig where
  n_embd : Nat
  n_head : Nat
  n_kv_head : Nat
  n_layer : Nat
  block_size : Nat

/-- head_dim = n_embd / n_head (src/src/models/llama.ts line 12). -/
def LlamaConfig.head_dim (c : LlamaConfig) : Nat := c.n_embd / c.n_head

/-- n_rep = n_head / n_kv_head (src/src/models/llama.ts line 13). -/
def LlamaConfig.n_rep (c : LlamaConfig) : Nat := c.n_head / c.n_kv_head

structure LlamaState where
  wte : Mat
  lm_head : Mat
  attn_wq : Nat → Mat
  attn_wk : Nat → Mat
  attn_wv : Nat → Mat
  attn_wo : Nat → Mat
  ffn_gate : Nat → Mat
  ffn_up : Nat → Mat
  ffn_down : Nat → Mat

/-- One attention head of Llama.forward (src/src/models/llama.ts lines 111
to 137): index-loop dot products against every cached key of the selected
key/value head, scaled by the square root of head_dim wrapped as a node,
softmax, then an index-loop weighted sum of the cached values. -/
def llamaHeadOut (hd : Nat) (q_h : Vec) (k_all v_all : List Vec) : Vec :=
  let attn_logits := (List.range k_all.length).map
    (fun t => dotLoop hd q_h (k_all.getD t []) / Real.sqrt (hd : ℝ))
  let w := softmaxD attn_logits
  (List.range hd).map (fun j =>
    (List.range v_all.length).foldl
      (fun s t => s + w.getD t 0 * (v_all.getD t []).getD j 0) 0)

/-- The per-head attention loop of Llama.forward (lines 104 to 140): query
head h reads the cached key/value head of index h / n_rep. -/
def llamaAttn (cfg : LlamaConfig) (q_heads : List Vec)
    (kc2 vc2 : List (List Vec)) : Vec :=
  (List.range cfg.n_head).flatMap (fun h =>
    llamaHeadOut cfg.head_dim (q_heads.getD h [])
      (kc2.map (fun kt => kt.getD (h / cfg.n_rep) []))
      (vc2.map (fun vt => vt.getD (h / cfg.n_rep) [])))

/-- One transformer layer of Llama.forward (lines 70 to 164): RoPE on the
query and key head slices at the current position, per-call append of the
key and value head lists, grouped-query attention, output projection and
residual, then the SwiGLU feed-forward with its residual. -/
def llamaLayer (st : LlamaState) (cfg : LlamaConfig) (li : Nat) (x0 : Vec)
    (pos : Nat) (kc vc : List (List Vec)) :
    Vec × List (List Vec) × List (List Vec) :=
  let x1 := rmsnorm x0
  let q := linearD x1 (st.attn_wq li)
  let k := linearD x1 (st.attn_wk li)
  let v := linearD x1 (st.attn_wv li)
  let q_heads := (List.range cfg.n_head).map
    (fun h => apply_rope (sliceL q (h * cfg.head_dim) cfg.head_dim) pos
      cfg.head_dim)
  let k_heads := (List.range cfg.n_kv_head).map
    (fun h => apply_rope (sliceL k (h * cfg.head_dim) cfg.head_dim) pos
      cfg.head_dim)
  let v_heads := (List.range cfg.n_kv_head).map
    (fun h => sliceL v (h * cfg.head_dim) cfg.head_dim)
  let kc2 := kc ++ [k_heads]
  let vc2 := vc ++ [v_heads]
  let x_attn := llamaAttn cfg q_heads kc2 vc2
  let x2 := linearD x_attn (st.attn_wo li)
  let x3 := List.zipWith (· + ·) x2 x0
  let x4 := rmsnorm x3
  let gate := linearD x4 (st.ffn_gate li)
  let up := linearD x4 (st.ffn_up li)
  let swiglu := (List.range gate.length).map
    (fun i => siluD (gate.getD i 0) * up.getD i 0)
  let x5 := linearD swiglu (st.ffn_down li)
  (List.zipWith (· + ·) x5 x3, kc2, vc2)

def llamaLayers (st : LlamaState) (cfg : LlamaConfig) (pos : Nat) :
    List Nat → Vec → List (List (List Vec)) → List (List (List Vec)) →
      Vec × List (List (List Vec)) × List (List (List Vec))
  | [], x, ks, vs => (x, ks, vs)
  | li :: rest, x, ks, vs =>
    let r := llamaLayer st cfg li x pos (ks.getD li []) (vs.getD li [])
    llamaLayers st cfg pos rest r.1 (ks.set li r.2.1) (vs.set li r.2.2)

/-- Llama.forward: token embedding, normalize, layers, final norm,
project to logits. -/
def llamaForward (st : LlamaState) (cfg : LlamaConfig) (tok pos : Nat)
    (keys values : List (List (List Vec))) :
    Vec × List (List (List Vec)) × List (List (List Vec)) :=
  let x0 := st.wte.getD tok []
  let x1 := rmsnorm x0
  let r := llamaLayers st cfg pos (List.range cfg.n_layer) x1 keys values
  let x2 := rmsnorm r.1
  (linearD x2 st.lm_head, r.2.1, r.2.2)

def llamaRun (st : LlamaState) (cfg : LlamaConfig) (toks : Nat → Nat) :
    Nat → List (List (List Vec)) × List (List (List Vec))
  | 0 => (List.replicate cfg.n_layer [], List.replicate cfg.n_layer [])
  | k + 1 =>
    let p := llamaRun st cfg toks k
    let r := llamaForward st cfg (toks k) k p.1 p.2
    (r.2.1, r.2.2)

/-! ## Variant C: the Deepseek class of src/unnamed/part_001 -/

structure DSConfig where
  n_embd : Nat
  n_head : Nat
  n_layer : Nat
  block_size : Nat
  latent_dim : Nat
  n_experts : Nat
  n_active : Nat

/-- head_dim = n_embd / n_head (src/unnamed/part_001 line 17). -/
def DSConfig.head_dim (c : DSConfig) : Nat := c.n_embd / c.n_head

structure DSState where
  wte : Mat
  lm_head : Mat
  attn_wq : Nat → Mat
  attn_compress_kv : Nat → Mat
  attn_wkv : Nat → Mat
  attn_wo : Nat → Mat
  router : Nat → Mat
  expert_gate : Nat → Nat → Mat
  expert_up : Nat → Nat → Mat
  expert_down : Nat → Nat → Mat

/-- The attention logits of one Deepseek head (src/unnamed/part_001 lines
118 to 136): for every cached position t the stored latent is up-projected
through attn_wkv, the first head_dim entries are sliced out as the key and
re-rotated with RoPE at position 0, then dotted with the query head. -/
def dsAttnLogits (st : DSState) (cfg : DSConfig) (li : Nat) (q_h : Vec)
    (kc : List Vec) : List ℝ :=
  (List.range kc.length).map (fun t =>
    let kv_full := linearD (kc.getD t []) (st.attn_wkv li)
    let k := sliceL kv_full 0 cfg.head_dim
    let k_rope := apply_rope k 0 cfg.head_dim
    dotLoop cfg.head_dim q_h k_rope / Real.sqrt ((cfg.head_dim : ℕ) : ℝ))

/-- One Deepseek attention head (lines 115 to 161): softmax the
reconstruction-based logits, then accumulate the weighted values, where
the value of cached position t is re-computed on the spot by up-projecting
the latent again and slicing entries head_dim to 2 * head_dim.  The source
iterates t outside and the coordinate j inside; since each output cell j
receives one addition per t in ascending order either way, the
j-outside form used here builds the identical additive chain per cell. -/
def dsHeadOut (st : DSState) (cfg : DSConfig) (li : Nat) (q_h : Vec)
    (kc : List Vec) : Vec :=
  let w := softmaxD (dsAttnLogits st cfg li q_h kc)
  (List.range cfg.head_dim).map (fun j =>
    (List.range w.length).foldl (fun s t =>
      let kv_full := linearD (kc.getD t []) (st.attn_wkv li)
      let v := sliceL kv_full cfg.head_dim cfg.head_dim
      s + w.getD t 0 * v.getD j 0) 0)

/-- One expert of the mixture (lines 179 to 193): an independent SwiGLU
feed-forward of the normalized input. -/
def dsExpertOut (st : DSState) (li e : Nat) (x : Vec) : Vec :=
  let gate := linearD x (st.expert_gate li e)
  let up := linearD x (st.expert_up li e)
  let swiglu := (List.range gate.length).map
    (fun i => siluD (gate.getD i 0) * up.getD i 0)
  linearD swiglu (st.expert_down li e)

/-- The mixture-of-experts block (lines 170 to 205): router logits,
softmax to per-expert weights, every expert evaluated, and the outputs
accumulated cell by cell weighted by the router probabilities (the source
iterates experts outside and cells inside; per cell the additive chain
over experts is identical). -/
def dsMoE (st : DSState) (cfg : DSConfig) (li : Nat) (x : Vec) : Vec :=
  let router_probs := softmaxD (linearD x (st.router li))
  let expert_outputs := (List.range cfg.n_experts).map
    (fun e => dsExpertOut st li e x)
  (List.range cfg.n_embd).map (fun j =>
    (List.range cfg.n_experts).foldl (fun s e =>
      s + router_probs.getD e 0 * (expert_outputs.getD e []).getD j 0) 0)

/-- The state of the residual stream after the attention half of a
Deepseek layer (lines 96 to 164): attention against the cache with the
fresh latent appended, output projection, residual. -/
def dsAfterAttn (st : DSState) (cfg : DSConfig) (li : Nat) (x0 : Vec)
    (pos : Nat) (kc : List Vec) : Vec :=
  let x1 := rmsnorm x0
  let q := linearD x1 (st.attn_wq li)
  let kv_latent := linearD x1 (st.attn_compress_kv li)
  let kc2 := kc ++ [kv_latent]
  let q_heads := (List.range cfg.n_head).map
    (fun h => apply_rope (sliceL q (h * cfg.head_dim) cfg.head_dim) pos
      cfg.head_dim)
  let x_attn := (List.range cfg.n_head).flatMap
    (fun h => dsHeadOut st cfg li (q_heads.getD h []) kc2)
  let x2 := linearD x_attn (st.attn_wo li)
  List.zipWith (· + ·) x2 x0

/-- One Deepseek layer: the attention half, then the mixture-of-experts
half on the re-normalized stream with its residual; the only cache effect
is the append of the compressed latent. -/
def dsLayer (st : DSState) (cfg : DSConfig) (li : Nat) (x0 : Vec)
    (pos : Nat) (kc : List Vec) : Vec × List Vec :=
  let x3 := dsAfterAttn st cfg li x0 pos kc
  let kv_latent := linearD (rmsnorm x0) (st.attn_compress_kv li)
  (List.zipWith (· + ·) (dsMoE st cfg li (rmsnorm x3)) x3, kc ++ [kv_latent])

def dsLayers (st : DSState) (cfg : DSConfig) (pos : Nat) :
    List Nat → Vec → List (List Vec) → Vec × List (List Vec)
  | [], x, ks => (x, ks)
  | li :: rest, x, ks =>
    let r := dsLayer st cfg li x pos (ks.getD li [])
    dsLayers st cfg pos rest r.1 (ks.set li r.2)

/-- Deepseek.forward (lines 83 to 214): token embedding, normalize,
layers against the single latent cache, final norm, project to logits. -/
def dsForward (st : DSState) (cfg : DSConfig) (tok pos : Nat)
    (latentCache : List (List Vec)) : Vec × List (List Vec) :=
  let x0 := st.wte.getD tok []
  let x1 := rmsnorm x0
  let r := dsLayers st cfg pos (List.range cfg.n_layer) x1 latentCache
  let x2 := rmsnorm r.1
  (linearD x2 st.lm_head, r.2)

/-- The call shape the shared driver uses (src/unnamed/part_000 line 32):
model.forward(tokenId, pos, keys, values) with four arguments, while
Deepseek.forward declares three parameters; under JavaScript call
semantics the fourth argument is dropped, so only the keys array reaches
the body (as the latent cache) and the values array is returned to the
caller untouched. -/
def dsForwardJS (st : DSState) (cfg : DSConfig) (tok pos : Nat)
    (keys values : List (List Vec)) :
    Vec × List (List Vec) × List (List Vec) :=
  let r := dsForward st cfg tok pos keys
  (r.1, r.2, values)

/-- k iterations of the driver loop of train (src/unnamed/part_000 lines
26 to 35) against the Deepseek model: both cache arrays start as fresh
empty per-layer lists and forward is called once per position. -/
def dsDriverRun (st : DSState) (cfg : DSConfig) (toks : Nat → Nat) :
    Nat → List (List Vec) × List (List Vec)
  | 0 => (List.replicate cfg.n_layer [], List.replicate cfg.n_layer [])
  | k + 1 =>
    let p := dsDriverRun st cfg toks k
    let r := dsForwardJS st cfg (toks k) k p.1 p.2
    (r.2.1, r.2.2)

/-! ## The binary parameter load routine -/

/-- The load routine of Llama.load and Deepseek.load: the file bytes are
reinterpreted as 64-bit floats and each parameter in order receives the
float at its own index, with no length comparison of any kind; a
JavaScript read past the end of the typed array yields undefined, which
the embedding records as none.  some means the parameter received a float
from the file. -/
def loadParams {β : Type} (params : List β) (file : List β) :
    List (Option β) :=
  (List.range params.length).map (fun i => file[i]?)

end

/-! ## Cache bookkeeping lemmas -/

theorem getD_replicate {β : Type} {n i : Nat} (a d : β) (h : i < n) :
    (List.replicate n a).getD i d = a := by
  simp [List.getD, List.getElem?_replicate, h]

theorem gptLayers_cache (st : GPTState) (cfg : GPTConfig) :
    ∀ (ls : List Nat), ls.Nodup →
    ∀ (x : Vec) (ks vs : List (List Vec)),
      ((gptLayers st cfg ls x ks vs).2.1.length = ks.length ∧
       (gptLayers st cfg ls x ks vs).2.2.length = vs.length) ∧
      (∀ li, li ∉ ls →
        (gptLayers st cfg ls x ks vs).2.1.getD li [] = ks.getD li [] ∧
        (gptLayers st cfg ls x ks vs).2.2.getD li [] = vs.getD li []) ∧
      (∀ li ∈ ls, li < ks.length → li < vs.length →
        (∃ w, (gptLayers st cfg ls x ks vs).2.1.getD li []
            = ks.getD li [] ++ [w]) ∧
        (∃ w, (gptLayers st cfg ls x ks vs).2.2.getD li []
            = vs.getD li [] ++ [w])) := by
  intro ls
  induction ls with
  | nil =>
    intro _ x ks vs
    exact ⟨⟨rfl, rfl⟩, fun li _ => ⟨rfl, rfl⟩,
      fun li h => absurd h (List.not_mem_nil li)⟩
  | cons li0 rest ih =>
    intro hnd x ks vs
    have hnd' : rest.Nodup := (List.nodup_cons.mp hnd).2
    have hli0 : li0 ∉ rest := (List.nodup_cons.mp hnd).1
    set r := gptLayer st cfg li0 x (ks.getD li0 []) (vs.getD li0 []) with hr
    have hstep : gptLayers st cfg (li0 :: rest) x ks vs
        = gptLayers st cfg rest r.1 (ks.set li0 r.2.1) (vs.set li0 r.2.2) :=
      rfl
    obtain ⟨⟨hl1, hl2⟩, hnot, hin⟩ :=
      ih hnd' r.1 (ks.set li0 r.2.1) (vs.set li0 r.2.2)
    rw [hstep]
    refine ⟨⟨by rw [hl1, List.length_set], by rw [hl2, List.length_set]⟩,
      ?_, ?_⟩
    · intro li hli
      have hne : li0 ≠ li := fun h => hli (h ▸ List.mem_cons_self li0 rest)
      have hnr : li ∉ rest := fun h => hli (List.mem_cons_of_mem li0 h)
      obtain ⟨h1, h2⟩ := hnot li hnr
      exact ⟨by rw [h1, getD_set_ne _ _ _ hne],
        by rw [h2, getD_set_ne _ _ _ hne]⟩
    · intro li hli hk hv
      rcases List.mem_cons.mp hli with h | h
      · subst h
        obtain ⟨h1, h2⟩ := hnot li hli0
        refine ⟨⟨linearD (rmsnorm x) (st.attn_wk li), ?_⟩,
          ⟨linearD (rmsnorm x) (st.attn_wv li), ?_⟩⟩
        · rw [h1, getD_set_self _ _ _ _ hk]
          rfl
        · rw [h2, getD_set_self _ _ _ _ hv]
          rfl
      · have hne : li0 ≠ li := fun he => hli0 (he ▸ h)
        obtain ⟨⟨w1, hw1⟩, ⟨w2, hw2⟩⟩ := hin li h
          (by rw [List.length_set]; exact hk)
          (by rw [List.length_set]; exact hv)
        refine ⟨⟨w1, ?_⟩, ⟨w2, ?_⟩⟩
        · rw [hw1, getD_set_ne _ _ _ hne]
        · rw [hw2, getD_set_ne _ _ _ hne]

theorem llamaLayers_cache (st : LlamaState) (cfg : LlamaConfig) (pos : Nat) :
    ∀ (ls : List Nat), ls.Nodup →
    ∀ (x : Vec) (ks vs : List (List (List Vec))),
      ((llamaLayers st cfg pos ls x ks vs).2.1.length = ks.length ∧
       (llamaLayers st cfg pos ls x ks vs).2.2.length = vs.length) ∧
      (∀ li, li ∉ ls →
        (llamaLayers st cfg pos ls x ks vs).2.1.getD li [] = ks.getD li [] ∧
        (llamaLayers st cfg pos ls x ks vs).2.2.getD li [] = vs.getD li []) ∧
      (∀ li ∈ ls, li < ks.length → li < vs.length →
        (∃ w, (llamaLayers st cfg pos ls x ks vs).2.1.getD li []
            = ks.getD li [] ++ [w]) ∧
        (∃ w, (llamaLayers st cfg pos ls x ks vs).2.2.getD li []
            = vs.getD li [] ++ [w])) := by
  intro ls
  induction ls with
  | nil =>
    intro _ x ks vs
    exact ⟨⟨rfl, rfl⟩, fun li _ => ⟨rfl, rfl⟩,
      fun li h => absurd h (List.not_mem_nil li)⟩
  | cons li0 rest ih =>
    intro hnd x ks vs
    have hnd' : rest.Nodup := (List.nodup_cons.mp hnd).2
    have hli0 : li0 ∉ rest := (List.nodup_cons.mp hnd).1
    set r := llamaLayer st cfg li0 x pos (ks.getD li0 []) (vs.getD li0 [])
      with hr
    have hstep : llamaLayers st cfg pos (li0 :: rest) x ks vs
        = llamaLayers st cfg pos rest r.1 (ks.set li0 r.2.1)
            (vs.set li0 r.2.2) := rfl
    obtain ⟨⟨hl1, hl2⟩, hnot, hin⟩ :=
      ih hnd' r.1 (ks.set li0 r.2.1) (vs.set li0 r.2.2)
    rw [hstep]
    refine ⟨⟨by rw [hl1, List.length_set], by rw [hl2, List.length_set]⟩,
      ?_, ?_⟩
    · intro li hli
      have hne : li0 ≠ li := fun h => hli (h ▸ List.mem_cons_self li0 rest)
      have hnr : li ∉ rest := fun h => hli (List.mem_cons_of_mem li0 h)
      obtain ⟨h1, h2⟩ := hnot li hnr
      exact ⟨by rw [h1, getD_set_ne _ _ _ hne],
        by rw [h2, getD_set_ne _ _ _ hne]⟩
    · intro li hli hk hv
      rcases List.mem_cons.mp hli with h | h
      · subst h
        obtain ⟨h1, h2⟩ := hnot li hli0
        refine ⟨⟨(List.range cfg.n_kv_head).map
            (fun h => apply_rope (sliceL (linearD (rmsnorm x) (st.attn_wk li))
              (h * cfg.head_dim) cfg.head_dim) pos cfg.head_dim), ?_⟩,
          ⟨(List.range cfg.n_kv_head).map
            (fun h => sliceL (linearD (rmsnorm x) (st.attn_wv li))
              (h * cfg.head_dim) cfg.head_dim), ?_⟩⟩
        · rw [h1, getD_set_self _ _ _ _ hk]
          rfl
        · rw [h2, getD_set_self _ _ _ _ hv]
          rfl
      · have hne : li0 ≠ li := fun he => hli0 (he ▸ h)
        obtain ⟨⟨w1, hw1⟩, ⟨w2, hw2⟩⟩ := hin li h
          (by rw [List.length_set]; exact hk)
          (by rw [List.length_set]; exact hv)
        refine ⟨⟨w1, ?_⟩, ⟨w2, ?_⟩⟩
        · rw [hw1, getD_set_ne _ _ _ hne]
        · rw [hw2, getD_set_ne _ _ _ hne]

theorem dsLayers_cache (st : DSState) (cfg : DSConfig) (pos : Nat) :
    ∀ (ls : List Nat), ls.Nodup →
    ∀ (x : Vec) (ks : List (List Vec)),
      ((dsLayers st cfg pos ls x ks).2.length = ks.length) ∧
      (∀ li, li ∉ ls →
        (dsLayers st cfg pos ls x ks).2.getD li [] = ks.getD li []) ∧
      (∀ li ∈ ls, li < ks.length →
        ∃ w, (dsLayers st cfg pos ls x ks).2.getD li []
            = ks.getD li [] ++ [w]) := by
  intro ls
  induction ls with
  | nil =>
    intro _ x ks
    exact ⟨rfl, fun li _ => rfl, fun li h => absurd h (List.not_mem_nil li)⟩
  | cons li0 rest ih =>
    intro hnd x ks
    have hnd' : rest.Nodup := (List.nodup_cons.mp hnd).2
    have hli0 : li0 ∉ rest := (List.nodup_cons.mp hnd).1
    set r := dsLayer st cfg li0 x pos (ks.getD li0 []) with hr
    have hstep : dsLayers st cfg pos (li0 :: rest) x ks
        = dsLayers st cfg pos rest r.1 (ks.set li0 r.2) := rfl
    obtain ⟨hl1, hnot, hin⟩ := ih hnd' r.1 (ks.set li0 r.2)
    rw [hstep]
    refine ⟨by rw [hl1, List.length_set], ?_, ?_⟩
    · intro li hli
      have hne : li0 ≠ li := fun h => hli (h ▸ List.mem_cons_self li0 rest)
      have hnr : li ∉ rest := fun h => hli (List.mem_cons_of_mem li0 h)
      rw [hnot li hnr, getD_set_ne _ _ _ hne]
    · intro li hli hk
      rcases List.mem_cons.mp hli with h | h
      · subst h
        refine ⟨linearD (rmsnorm x) (st.attn_compress_kv li), ?_⟩
        rw [hnot li hli0, getD_set_self _ _ _ _ hk]
        rfl
      · have hne : li0 ≠ li := fun he => hli0 (he ▸ h)
        obtain ⟨w1, hw1⟩ := hin li h (by rw [List.length_set]; exact hk)
        exact ⟨w1, by rw [hw1, getD_set_ne _ _ _ hne]⟩

/-! ## Cache growth across runs of forward calls -/

theorem gptRun_spec (st : GPTState) (cfg : GPTConfig) (toks : Nat → Nat) :
    ∀ k : Nat,
      ((gptRun st cfg toks k).1.length = cfg.n_layer ∧
       (gptRun st cfg toks k).2.length = cfg.n_layer) ∧
      (∀ li, li < cfg.n_layer →
        ((gptRun st cfg toks k).1.getD li []).length = k ∧
        ((gptRun st cfg toks k).2.getD li []).length = k) := by
  intro k
  induction k with
  | zero =>
    refine ⟨⟨List.length_replicate _ _, List.length_replicate _ _⟩, ?_⟩
    intro li hli
    have h1 : (gptRun st cfg toks 0).1 = List.replicate cfg.n_layer [] := rfl
    have h2 : (gptRun st cfg toks 0).2 = List.replicate cfg.n_layer [] := rfl
    rw [h1, h2, getD_replicate _ _ hli]
    exact ⟨rfl, rfl⟩
  | succ k ih =>
    obtain ⟨⟨hL1, hL2⟩, hlen⟩ := ih
    set p := gptRun st cfg toks k with hp
    obtain ⟨⟨gL1, gL2⟩, _, gin⟩ := gptLayers_cache st cfg
      (List.range cfg.n_layer) (List.nodup_range _)
      (rmsnorm (List.zipWith (· + ·) (st.wte.getD (toks k) [])
        (st.wpe.getD k [])))
      p.1 p.2
    refine ⟨⟨by rw [show (gptRun st cfg toks (k+1)).1
        = (gptLayers st cfg (List.range cfg.n_layer) _ p.1 p.2).2.1 from rfl,
        gL1, hL1],
      by rw [show (gptRun st cfg toks (k+1)).2
        = (gptLayers st cfg (List.range cfg.n_layer) _ p.1 p.2).2.2 from rfl,
        gL2, hL2]⟩, ?_⟩
    intro li hli
    obtain ⟨⟨w1, hw1⟩, ⟨w2, hw2⟩⟩ := gin li (List.mem_range.mpr hli)
      (hL1 ▸ hli) (hL2 ▸ hli)
    obtain ⟨e1, e2⟩ := hlen li hli
    constructor
    · rw [show (gptRun st cfg toks (k+1)).1.getD li []
        = (gptLayers st cfg (List.range cfg.n_layer) _ p.1 p.2).2.1.getD li []
        from rfl, hw1, List.length_append, e1]
      rfl
    · rw [show (gptRun st cfg toks (k+1)).2.getD li []
        = (gptLayers st cfg (List.range cfg.n_layer) _ p.1 p.2).2.2.getD li []
        from rfl, hw2, List.length_append, e2]
      rfl

theorem llamaRun_spec (st : LlamaState) (cfg : LlamaConfig)
    (toks : Nat → Nat) :
    ∀ k : Nat,
      ((llamaRun st cfg toks k).1.length = cfg.n_layer ∧
       (llamaRun st cfg toks k).2.length = cfg.n_layer) ∧
      (∀ li, li < cfg.n_layer →
        ((llamaRun st cfg toks k).1.getD li []).length = k ∧
        ((llamaRun st cfg toks k).2.getD li []).length = k) := by
  intro k
  induction k with
  | zero =>
    refine ⟨⟨List.length_replicate _ _, List.length_replicate _ _⟩, ?_⟩
    intro li hli
    have h1 : (llamaRun st cfg toks 0).1 = List.replicate cfg.n_layer [] := rfl
    have h2 : (llamaRun st cfg toks 0).2 = List.replicate cfg.n_layer [] := rfl
    rw [h1, h2, getD_replicate _ _ hli]
    exact ⟨rfl, rfl⟩
  | succ k ih =>
    obtain ⟨⟨hL1, hL2⟩, hlen⟩ := ih
    set p := llamaRun st cfg toks k with hp
    obtain ⟨⟨gL1, gL2⟩, _, gin⟩ := llamaLayers_cache st cfg k
      (List.range cfg.n_layer) (List.nodup_range _)
      (rmsnorm (st.wte.getD (toks k) []))
      p.1 p.2
    refine ⟨⟨by rw [show (llamaRun st cfg toks (k+1)).1
        = (llamaLayers st cfg k (List.range cfg.n_layer) _ p.1 p.2).2.1
        from rfl, gL1, hL1],
      by rw [show (llamaRun st cfg toks (k+1)).2
        = (llamaLayers st cfg k (List.range cfg.n_layer) _ p.1 p.2).2.2
        from rfl, gL2, hL2]⟩, ?_⟩
    intro li hli
    obtain ⟨⟨w1, hw1⟩, ⟨w2, hw2⟩⟩ := gin li (List.mem_range.mpr hli)
      (hL1 ▸ hli) (hL2 ▸ hli)
    obtain ⟨e1, e2⟩ := hlen li hli
    constructor
    · rw [show (llamaRun st cfg toks (k+1)).1.getD li []
        = (llamaLayers st cfg k (List.range cfg.n_layer) _ p.1 p.2).2.1.getD
            li [] from rfl, hw1, List.length_append, e1]
      rfl
    · rw [show (llamaRun st cfg toks (k+1)).2.getD li []
        = (llamaLayers st cfg k (List.range cfg.n_layer) _ p.1 p.2).2.2.getD
            li [] from rfl, hw2, List.length_append, e2]
      rfl

/-- k forward calls of the Deepseek model against an initially empty
latent cache. -/
noncomputable def dsRun (st : DSState) (cfg : DSConfig) (toks : Nat → Nat) :
    Nat → List (List Vec)
  | 0 => List.replicate cfg.n_layer []
  | k + 1 => (dsForward st cfg (toks k) k (dsRun st cfg toks k)).2

theorem dsRun_spec (st : DSState) (cfg : DSConfig) (toks : Nat → Nat) :
    ∀ k : Nat,
      ((dsRun st cfg toks k).length = cfg.n_layer) ∧
      (∀ li, li < cfg.n_layer →
        ((dsRun st cfg toks k).getD li []).length = k) := by
  intro k
  induction k with
  | zero =>
    refine ⟨List.length_replicate _ _, ?_⟩
    intro li hli
    have h1 : dsRun st cfg toks 0 = List.replicate cfg.n_layer [] := rfl
    rw [h1, getD_replicate _ _ hli]
    rfl
  | succ k ih =>
    obtain ⟨hL1, hlen⟩ := ih
    set p := dsRun st cfg toks k with hp
    obtain ⟨gL1, _, gin⟩ := dsLayers_cache st cfg k
      (List.range cfg.n_layer) (List.nodup_range _)
      (rmsnorm (st.wte.getD (toks k) [])) p
    refine ⟨by rw [show dsRun st cfg toks (k+1)
        = (dsLayers st cfg k (List.range cfg.n_layer) _ p).2 from rfl,
        gL1, hL1], ?_⟩
    intro li hli
    obtain ⟨w1, hw1⟩ := gin li (List.mem_range.mpr hli) (hL1 ▸ hli)
    rw [show (dsRun st cfg toks (k+1)).getD li []
        = (dsLayers st cfg k (List.range cfg.n_layer) _ p).2.getD li []
        from rfl, hw1, List.length_append, hlen li hli]
    rfl

/-! ## Equivalence of the three attention computations -/

theorem getD_mem {β : Type} {l : List β} {n : Nat} {d : β}
    (h : n < l.length) : l.getD n d ∈ l := by
  rw [List.getD_eq_getElem l d h]
  exact List.getElem_mem h

theorem getD_map {β γ : Type} (f : β → γ) (l : List β) {t : Nat} (d : β)
    (d2 : γ) (h : t < l.length) : (l.map f).getD t d2 = f (l.getD t d) := by
  rw [List.getD_eq_getElem _ _ (by simpa using h), List.getD_eq_getElem _ _ h]
  simp

noncomputable section

/-- The head attention of spec section 4.4 Variant A: scaled dot-product
logits of the query slice against every cached key slice, softmax over all
cached positions, weighted sum of the cached value slices. -/
def specAttnHead (hd : Nat) (qh : Vec) (ks vs : List Vec) : Vec :=
  let w := softmaxD (ks.map (fun kt => dotRed qh kt / Real.sqrt (hd : ℝ)))
  (List.range hd).map (fun j =>
    (List.zipWith (fun wt vt => wt * vt.getD j 0) w vs).sum)

theorem dotLoop_eq_dotRed (d : Nat) (a b : Vec) (ha : a.length = d)
    (hb : b.length = d) : dotLoop d a b = dotRed a b := by
  unfold dotLoop dotRed
  rw [foldl_add_from (fun j => a.getD j 0 * b.getD j 0) (List.range d) 0,
    zero_add, map_range_zipWith (fun x y => x * y) 0 0 d a b ha hb,
    reduceAddD_eq_sum]

/-- The index-loop weighted value sum equals the zip-with form once the
weight list and the value list have the same length. -/
theorem weightedSum_eq (w : List ℝ) (vs : List Vec) (j : Nat)
    (hwv : w.length = vs.length) :
    (List.range vs.length).foldl
        (fun s t => s + w.getD t 0 * (vs.getD t []).getD j 0) 0
      = (List.zipWith (fun wt vt => wt * vt.getD j 0) w vs).sum := by
  rw [foldl_add_from (fun t => w.getD t 0 * (vs.getD t []).getD j 0)
    (List.range vs.length) 0, zero_add,
    map_range_zipWith (fun wt vt => wt * vt.getD j 0) 0 [] vs.length w vs
      hwv rfl]

/-- The Llama head computation coincides with the Variant A head formula
of the spec at matching shapes. -/
theorem llamaHeadOut_eq_spec (hd : Nat) (q_h : Vec) (k_all v_all : List Vec)
    (hq : q_h.length = hd) (hk : ∀ k ∈ k_all, k.length = hd)
    (hlen : k_all.length = v_all.length) :
    llamaHeadOut hd q_h k_all v_all = specAttnHead hd q_h k_all v_all := by
  unfold llamaHeadOut specAttnHead
  have hlog : (List.range k_all.length).map
      (fun t => dotLoop hd q_h (k_all.getD t []) / Real.sqrt (hd : ℝ))
      = k_all.map (fun kt => dotRed q_h kt / Real.sqrt (hd : ℝ)) := by
    rw [← map_range_getD (fun kt => dotRed q_h kt / Real.sqrt (hd : ℝ))
      ([] : Vec) k_all]
    apply List.map_congr_left
    intro t ht
    rw [dotLoop_eq_dotRed hd q_h (k_all.getD t []) hq
      (hk _ (getD_mem (List.mem_range.mp ht)))]
  rw [hlog]
  apply List.map_congr_left
  intro j _
  apply weightedSum_eq
  rw [softmaxD_length, List.length_map, hlen]

theorem length_linearD (x : Vec) (w : Mat) : (linearD x w).length = w.length := by
  simp [linearD]

theorem length_sliceL_of_le (l : Vec) (n : Nat) (h : n ≤ l.length) :
    (sliceL l 0 n).length = n := by
  simp [sliceL]
  omega

/-- The key the Deepseek attention reads for a cached latent: the first
head_dim entries of the up-projection, stated by the spec as the key slice
rotated at the fixed reference position 0. -/
def dsSpecKeys (st : DSState) (cfg : DSConfig) (li : Nat) (kc : List Vec) :
    List Vec :=
  kc.map (fun lat => sliceL (linearD lat (st.attn_wkv li)) 0 cfg.head_dim)

/-- The value the Deepseek attention reads for a cached latent: entries
head_dim to 2 * head_dim of the up-projection. -/
def dsSpecVals (st : DSState) (cfg : DSConfig) (li : Nat) (kc : List Vec) :
    List Vec :=
  kc.map (fun lat =>
    sliceL (linearD lat (st.attn_wkv li)) cfg.head_dim cfg.head_dim)

/-- The logits of a Deepseek head are the scaled dot products of the query
head against the latent-reconstructed keys; the RoPE rotation applied at
the constant position 0 is the identity, so the reconstructed key is
exactly the first head_dim entries of the up-projection, independent of
the position at which the latent was cached. -/
theorem dsAttnLogits_eq (st : DSState) (cfg : DSConfig) (li : Nat)
    (q_h : Vec) (kc : List Vec)
    (hrows : (st.attn_wkv li).length = cfg.n_embd)
    (hle : cfg.head_dim ≤ cfg.n_embd) (heven : cfg.head_dim % 2 = 0) :
    dsAttnLogits st cfg li q_h kc
      = (dsSpecKeys st cfg li kc).map
          (fun kt => dotLoop cfg.head_dim q_h kt
            / Real.sqrt ((cfg.head_dim : ℕ) : ℝ)) := by
  unfold dsAttnLogits dsSpecKeys
  rw [List.map_map]
  rw [← map_range_getD
    ((fun kt => dotLoop cfg.head_dim q_h kt / Real.sqrt ((cfg.head_dim : ℕ) : ℝ))
      ∘ (fun lat => sliceL (linearD lat (st.attn_wkv li)) 0 cfg.head_dim))
    ([] : Vec) kc]
  apply List.map_congr_left
  intro t _
  simp only [Function.comp_apply]
  have hslice : (sliceL (linearD (kc.getD t []) (st.attn_wkv li)) 0
      cfg.head_dim).length = cfg.head_dim := by
    apply length_sliceL_of_le
    rw [length_linearD, hrows]
    exact hle
  rw [apply_rope_zero cfg.head_dim _ hslice heven]

/-- The Deepseek head output equals the softmax-weighted sum of the
latent-reconstructed values against the latent-reconstructed keys. -/
theorem dsHeadOut_eq_spec (st : DSState) (cfg : DSConfig) (li : Nat)
    (q_h : Vec) (kc : List Vec)
    (hrows : (st.attn_wkv li).length = cfg.n_embd)
    (hle : cfg.head_dim ≤ cfg.n_embd) (heven : cfg.head_dim % 2 = 0) :
    dsHeadOut st cfg li q_h kc
      = (List.range cfg.head_dim).map (fun j =>
          (List.zipWith (fun wt vt => wt * vt.getD j 0)
            (softmaxD ((dsSpecKeys st cfg li kc).map
              (fun kt => dotLoop cfg.head_dim q_h kt
                / Real.sqrt ((cfg.head_dim : ℕ) : ℝ))))
            (dsSpecVals st cfg li kc)).sum) := by
  unfold dsHeadOut
  rw [dsAttnLogits_eq st cfg li q_h kc hrows hle heven]
  set w := softmaxD ((dsSpecKeys st cfg li kc).map
    (fun kt => dotLoop cfg.head_dim q_h kt
      / Real.sqrt ((cfg.head_dim : ℕ) : ℝ))) with hw
  have hwlen : w.length = kc.length := by
    rw [hw, softmaxD_length, List.length_map]
    unfold dsSpecKeys
    rw [List.length_map]
  apply List.map_congr_left
  intro j _
  rw [foldl_add_from
    (fun t => w.getD t 0 * (sliceL (linearD (kc.getD t [])
      (st.attn_wkv li)) cfg.head_dim cfg.head_dim).getD j 0)
    (List.range w.length) 0, zero_add]
  have hcong : ∀ t ∈ List.range w.length,
      w.getD t 0 * (sliceL (linearD (kc.getD t []) (st.attn_wkv li))
        cfg.head_dim cfg.head_dim).getD j 0
      = w.getD t 0 * ((dsSpecVals st cfg li kc).getD t []).getD j 0 := by
    intro t ht
    have htlt : t < kc.length := hwlen ▸ List.mem_range.mp ht
    unfold dsSpecVals
    rw [getD_map _ kc ([] : Vec) ([] : Vec) htlt]
  rw [List.map_congr_left hcong]
  have hvlen : (dsSpecVals st cfg li kc).length = w.length := by
    unfold dsSpecVals
    rw [List.length_map, hwlen]
  rw [map_range_zipWith (fun wt vt => wt * vt.getD j 0) 0 [] w.length w
    (dsSpecVals st cfg li kc) rfl hvlen]

/-- The mixture-of-experts accumulation is the sum over all experts of the
router probability times the expert output, cell by cell. -/
theorem dsMoE_eq (st : DSState) (cfg : DSConfig) (li : Nat) (x : Vec) :
    dsMoE st cfg li x = (List.range cfg.n_embd).map (fun j =>
      ((List.range cfg.n_experts).map (fun e =>
        (softmaxD (linearD x (st.router li))).getD e 0
          * (dsExpertOut st li e x).getD j 0)).sum) := by
  unfold dsMoE
  apply List.map_congr_left
  intro j _
  rw [foldl_add_from
    (fun e => (softmaxD (linearD x (st.router li))).getD e 0
      * (((List.range cfg.n_experts).map
          (fun e => dsExpertOut st li e x)).getD e []).getD j 0)
    (List.range cfg.n_experts) 0, zero_add]
  apply congrArg
  apply List.map_congr_left
  intro e he
  have helt : e < cfg.n_experts := List.mem_range.mp he
  have hmap : ((List.range cfg.n_experts).map
      (fun e => dsExpertOut st li e x)).getD e []
      = dsExpertOut st li ((List.range cfg.n_experts).getD e 0) x :=
    getD_map _ _ 0 ([] : Vec) (by simpa using helt)
  have hre : (List.range cfg.n_experts).getD e 0 = e := by
    rw [List.getD_eq_getElem _ _ (by simpa using helt)]
    simp
  rw [hmap, hre]

end

/-! ## Analytic certification of the recorded local gradients -/

noncomputable section

theorem sigmoid_hasDeriv (x : ℝ) :
    HasDerivAt Value.sigmoid
      (Value.sigmoid x * (1 - Value.sigmoid x)) x := by
  have hexp : HasDerivAt (fun y : ℝ => Real.exp (-y)) (-Real.exp (-x)) x := by
    have hneg : HasDerivAt (fun y : ℝ => -y) (-1) x := (hasDerivAt_id x).neg
    have := (Real.hasDerivAt_exp (-x)).comp x hneg
    simpa using this
  have hden : HasDerivAt (fun y : ℝ => 1 + Real.exp (-y))
      (-Real.exp (-x)) x := by
    simpa using hexp.const_add 1
  have hne : (1 : ℝ) + Real.exp (-x) ≠ 0 := by positivity
  have hdiv := (hasDerivAt_const x (1 : ℝ)).div hden hne
  have hval : (0 * (1 + Real.exp (-x)) - 1 * (-Real.exp (-x)))
      / (1 + Real.exp (-x)) ^ 2
      = Value.sigmoid x * (1 - Value.sigmoid x) := by
    unfold Value.sigmoid
    field_simp
    ring
  exact hval ▸ hdiv

theorem silu_hasDeriv (x : ℝ) :
    HasDerivAt (fun y => y * Value.sigmoid y)
      (Value.sigmoid x * (1 + x * (1 - Value.sigmoid x))) x := by
  have h := (hasDerivAt_id x).mul (sigmoid_hasDeriv x)
  have hval : 1 * Value.sigmoid x
      + x * (Value.sigmoid x * (1 - Value.sigmoid x))
      = Value.sigmoid x * (1 + x * (1 - Value.sigmoid x)) := by ring
  exact hval ▸ h

theorem relu_hasDeriv_pos {x : ℝ} (hx : 0 < x) :
    HasDerivAt (fun y : ℝ => max 0 y) 1 x := by
  have hev : (fun y : ℝ => max 0 y) =ᶠ[nhds x] id := by
    filter_upwards [Ioi_mem_nhds hx] with y hy
    exact max_eq_right (le_of_lt hy)
  exact (hasDerivAt_id x).congr_of_eventuallyEq hev

theorem relu_hasDeriv_neg {x : ℝ} (hx : x < 0) :
    HasDerivAt (fun y : ℝ => max 0 y) 0 x := by
  have hev : (fun y : ℝ => max 0 y) =ᶠ[nhds x] (fun _ => (0 : ℝ)) := by
    filter_upwards [Iio_mem_nhds hx] with y hy
    exact max_eq_left (le_of_lt hy)
  exact (hasDerivAt_const x 0).congr_of_eventuallyEq hev

end

/-! ## The configured n_active is dead: forward ignores it -/

theorem dsLayers_n_active (st : DSState)
    (e h l b ld ex act a pos : Nat) :
    ∀ (ls : List Nat) (x : Vec) (kc : List (List Vec)),
      dsLayers st ⟨e, h, l, b, ld, ex, a⟩ pos ls x kc
        = dsLayers st ⟨e, h, l, b, ld, ex, act⟩ pos ls x kc := by
  intro ls
  induction ls with
  | nil => intro x kc; rfl
  | cons li rest ih =>
    intro x kc
    have hstep : dsLayer st ⟨e, h, l, b, ld, ex, a⟩ li x pos (kc.getD li [])
        = dsLayer st ⟨e, h, l, b, ld, ex, act⟩ li x pos (kc.getD li []) := rfl
    show dsLayers st ⟨e, h, l, b, ld, ex, a⟩ pos rest
        (dsLayer st ⟨e, h, l, b, ld, ex, a⟩ li x pos (kc.getD li [])).1
        (kc.set li
          (dsLayer st ⟨e, h, l, b, ld, ex, a⟩ li x pos (kc.getD li [])).2)
      = dsLayers st ⟨e, h, l, b, ld, ex, act⟩ pos rest
        (dsLayer st ⟨e, h, l, b, ld, ex, act⟩ li x pos (kc.getD li [])).1
        (kc.set li
          (dsLayer st ⟨e, h, l, b, ld, ex, act⟩ li x pos (kc.getD li [])).2)
    rw [hstep]
    exact ih _ _

theorem dsForward_n_active (st : DSState) (cfg : DSConfig)
    (a tok pos : Nat) (kc : List (List Vec)) :
    dsForward st { cfg with n_active := a } tok pos kc
      = dsForward st cfg tok pos kc := by
  cases cfg with
  | mk e h l b ld ex act =>
    show (linearD (rmsnorm (dsLayers st ⟨e, h, l, b, ld, ex, a⟩ pos
        (List.range l) (rmsnorm (st.wte.getD tok [])) kc).1) st.lm_head,
        (dsLayers st ⟨e, h, l, b, ld, ex, a⟩ pos (List.range l)
          (rmsnorm (st.wte.getD tok [])) kc).2)
      = (linearD (rmsnorm (dsLayers st ⟨e, h, l, b, ld, ex, act⟩ pos
          (List.range l) (rmsnorm (st.wte.getD tok [])) kc).1) st.lm_head,
        (dsLayers st ⟨e, h, l, b, ld, ex, act⟩ pos (List.range l)
          (rmsnorm (st.wte.getD tok [])) kc).2)
    rw [dsLayers_n_active st e h l b ld ex act a pos (List.range l)
      (rmsnorm (st.wte.getD tok [])) kc]

/-! ## Concrete states for the witnesses -/

noncomputable section

def wGPT : GPTState :=
  ⟨[[1]], [[1]], [[1]], fun _ => [[1]], fun _ => [[1]], fun _ => [[1]],
    fun _ => [[1]], fun _ => [[1]], fun _ => [[1]]⟩

def wGPTCfg : GPTConfig := ⟨1, 1, 1, 8⟩

def wLlama : LlamaState :=
  ⟨[[1]], [[1]], fun _ => [[1]], fun _ => [[1]], fun _ => [[1]],
    fun _ => [[1]], fun _ => [[1]], fun _ => [[1]], fun _ => [[1]]⟩

def wLlamaCfg : LlamaConfig := ⟨1, 1, 1, 1, 8⟩

def wDS : DSState :=
  ⟨[[1]], [[1]], fun _ => [[1, 0], [0, 1]], fun _ => [[1, 0], [0, 1]],
    fun _ => [[1, 0], [0, 1]], fun _ => [[1, 0], [0, 1]], fun _ => [[1]],
    fun _ _ => [[1]], fun _ _ => [[1]], fun _ _ => [[1]]⟩

def wDSCfg : DSConfig := ⟨2, 1, 1, 8, 2, 2, 2⟩

end

/-! ## The claims -/

/-- C1: on every finite acyclic computation graph, Value.backward started
with all gradients 0 gives every node the chain-rule derivative delta of
the output data with respect to that node data (the sum over operand
paths of the products of the recorded local gradients, which C2 certifies
to be the analytic partials); the traversal list contains each node
reachable from the output exactly once, contains nothing else, and is a
post-order: every operand of a listed node appears strictly before it, so
the reverse finishing order distributes coefficient times node.grad to
each parent with fan-out handled by accumulation.  The seeding of the
output gradient with 1 and the accumulation loop itself are the
definitions backwardFrom and gradStep. -/
theorem claim_C1_backward {α : Type} [CommRing α] (g : Graph α) (out : Nat)
    (hout : out < g.nodes.length) :
    (∀ n, backward g out n = delta g out n) ∧
    (buildTopo g out).topo.Nodup ∧
    (∀ x, x ∈ (buildTopo g out).topo ↔ Reach g out x) ∧
    (∀ x ∈ (buildTopo g out).topo, ∀ c ∈ g.childIdxs x,
      c ∈ (buildTopo g out).topo ∧ Before (buildTopo g out).topo c x) := by
  obtain ⟨hNd, hclosed, hreach⟩ := buildTopo_spec g out
  exact ⟨backward_eq_delta g out hout, hNd, hreach, hclosed⟩

/-- A three-node graph with fan-out for the C1 witness: node 0 is a leaf,
node 1 = add(node 0, node 0), node 2 scales node 1 by 5. -/
def witnessGraph : Graph ℚ :=
  ⟨[⟨3, []⟩, ⟨6, [(0, 1), (0, 1)]⟩, ⟨30, [(1, 5)]⟩], by decide⟩

theorem claim_C1_backward_witness :
    2 < witnessGraph.nodes.length ∧
    ((∀ n, backward witnessGraph 2 n = delta witnessGraph 2 n) ∧
     (buildTopo witnessGraph 2).topo.Nodup ∧
     (∀ x, x ∈ (buildTopo witnessGraph 2).topo ↔ Reach witnessGraph 2 x) ∧
     (∀ x ∈ (buildTopo witnessGraph 2).topo, ∀ c ∈ witnessGraph.childIdxs x,
       c ∈ (buildTopo witnessGraph 2).topo ∧
         Before (buildTopo witnessGraph 2).topo c x)) :=
  ⟨by decide, claim_C1_backward witnessGraph 2 (by decide)⟩

/-- C2: every operator returns one new node whose data is the numeric
result and whose operand and local-gradient lists record the exact
analytic partial derivatives at the operand data: the structural
conjuncts state data, children and localGrads of each primitive operator
and the derived definitions of neg, sub and div, with raw numbers wrapped
as constant leaves with empty parents; the HasDerivAt conjuncts certify
each recorded coefficient as the true derivative of the operator map in
the corresponding operand (pow and log away from 0, relu away from its
kink, where the recorded one-sided choice is stated for each sign). -/
theorem claim_C2_operators (a b : Value) (p : ℝ) :
    ((a.add b).data = a.data + b.data ∧ (a.add b).children = [a, b]
      ∧ (a.add b).localGrads = [1, 1]) ∧
    ((a.mul b).data = a.data * b.data ∧ (a.mul b).children = [a, b]
      ∧ (a.mul b).localGrads = [b.data, a.data]) ∧
    ((a.pow p).data = a.data ^ p ∧ (a.pow p).children = [a]
      ∧ (a.pow p).localGrads = [p * a.data ^ (p - 1)]) ∧
    (a.log.data = Real.log a.data ∧ a.log.children = [a]
      ∧ a.log.localGrads = [1 / a.data]) ∧
    (a.exp.data = Real.exp a.data ∧ a.exp.children = [a]
      ∧ a.exp.localGrads = [Real.exp a.data]) ∧
    (a.relu.data = max 0 a.data ∧ a.relu.children = [a]
      ∧ a.relu.localGrads = [if a.data > 0 then 1 else 0]) ∧
    (a.silu.data = a.data * Value.sigmoid a.data ∧ a.silu.children = [a]) ∧
    (a.neg = a.mul (Value.ofNum (-1)) ∧ a.sub b = a.add b.neg
      ∧ a.div b = a.mul (b.pow (-1))) ∧
    ((Value.ofNum p).children = [] ∧ (Value.ofNum p).localGrads = []
      ∧ (Value.ofNum p).data = p) ∧
    HasDerivAt (fun y => y + b.data) ((a.add b).localGrads.getD 0 0) a.data ∧
    HasDerivAt (fun y => a.data + y) ((a.add b).localGrads.getD 1 0) b.data ∧
    HasDerivAt (fun y => y * b.data) ((a.mul b).localGrads.getD 0 0) a.data ∧
    HasDerivAt (fun y => a.data * y) ((a.mul b).localGrads.getD 1 0) b.data ∧
    (0 < a.data → HasDerivAt (fun y : ℝ => y ^ p)
      ((a.pow p).localGrads.getD 0 0) a.data) ∧
    (a.data ≠ 0 → HasDerivAt Real.log (a.log.localGrads.getD 0 0) a.data) ∧
    HasDerivAt Real.exp (a.exp.localGrads.getD 0 0) a.data ∧
    (0 < a.data → HasDerivAt (fun y : ℝ => max 0 y)
      (a.relu.localGrads.getD 0 0) a.data) ∧
    (a.data < 0 → HasDerivAt (fun y : ℝ => max 0 y)
      (a.relu.localGrads.getD 0 0) a.data) ∧
    HasDerivAt (fun y => y * Value.sigmoid y)
      (a.silu.localGrads.getD 0 0) a.data := by
  refine ⟨⟨rfl, rfl, rfl⟩, ⟨rfl, rfl, rfl⟩, ⟨rfl, rfl, rfl⟩,
    ⟨rfl, rfl, rfl⟩, ⟨rfl, rfl, rfl⟩, ⟨rfl, rfl, rfl⟩, ⟨rfl, rfl⟩,
    ⟨rfl, rfl, rfl⟩, ⟨rfl, rfl, rfl⟩, ?_, ?_, ?_, ?_, ?_, ?_, ?_, ?_, ?_, ?_⟩
  · show HasDerivAt (fun y => y + b.data) 1 a.data
    exact (hasDerivAt_id a.data).add_const b.data
  · show HasDerivAt (fun y => a.data + y) 1 b.data
    simpa using (hasDerivAt_id b.data).const_add a.data
  · show HasDerivAt (fun y => y * b.data) b.data a.data
    exact hasDerivAt_mul_const b.data
  · show HasDerivAt (fun y => a.data * y) a.data b.data
    simpa using (hasDerivAt_id b.data).const_mul a.data
  · intro h
    show HasDerivAt (fun y : ℝ => y ^ p) (p * a.data ^ (p - 1)) a.data
    exact Real.hasDerivAt_rpow_const (Or.inl (ne_of_gt h))
  · intro h
    show HasDerivAt Real.log (1 / a.data) a.data
    rw [one_div]
    exact Real.hasDerivAt_log h
  · show HasDerivAt Real.exp (Real.exp a.data) a.data
    exact Real.hasDerivAt_exp a.data
  · intro h
    show HasDerivAt (fun y : ℝ => max 0 y)
      (if a.data > 0 then 1 else 0) a.data
    rw [if_pos h]
    exact relu_hasDeriv_pos h
  · intro h
    show HasDerivAt (fun y : ℝ => max 0 y)
      (if a.data > 0 then 1 else 0) a.data
    rw [if_neg (not_lt.mpr (le_of_lt h))]
    exact relu_hasDeriv_neg h
  · show HasDerivAt (fun y => y * Value.sigmoid y)
      (Value.sigmoid a.data * (1 + a.data * (1 - Value.sigmoid a.data)))
      a.data
    exact silu_hasDeriv a.data

theorem claim_C2_operators_witness :
    (((Value.ofNum 1).add (Value.ofNum 2)).data = 1 + 2) ∧
    HasDerivAt (fun y : ℝ => y ^ (3 : ℝ))
      (((Value.ofNum 1).pow 3).localGrads.getD 0 0) 1 ∧
    HasDerivAt Real.log ((Value.ofNum 1).log.localGrads.getD 0 0) 1 ∧
    HasDerivAt (fun y : ℝ => max 0 y)
      ((Value.ofNum 1).relu.localGrads.getD 0 0) 1 ∧
    HasDerivAt (fun y : ℝ => max 0 y)
      ((Value.ofNum (-1)).relu.localGrads.getD 0 0) (-1) := by
  have h1 := claim_C2_operators (Value.ofNum 1) (Value.ofNum 2) 3
  have h2 := claim_C2_operators (Value.ofNum (-1)) (Value.ofNum 2) 3
  refine ⟨h1.1.1, ?_, ?_, ?_, ?_⟩
  · exact h1.2.2.2.2.2.2.2.2.2.2.2.2.2.1 one_pos
  · exact h1.2.2.2.2.2.2.2.2.2.2.2.2.2.2.1 one_ne_zero
  · exact h1.2.2.2.2.2.2.2.2.2.2.2.2.2.2.2.2.1 one_pos
  · exact h2.2.2.2.2.2.2.2.2.2.2.2.2.2.2.2.2.2.1 neg_one_lt_zero

/-- C5: softmax subtracts the maximum raw data value, computed as a plain
number rather than a node, from every logit before exponentiating, and
divides each exponential by their total (definitions softmaxV and
softmaxD; the first conjunct identifies the node-level computation with
the data-level one).  On every finite nonempty real logit vector the
entries are in the interval (0, 1], they sum to 1, and the output is
invariant under adding one constant to every logit. -/
theorem claim_C5_softmax (l : List Value) (xs : List ℝ) (hxs : xs ≠ [])
    (c : ℝ) :
    ((softmaxV l).map Value.data = softmaxD (l.map Value.data)) ∧
    (∀ e ∈ softmaxD xs, 0 < e ∧ e ≤ 1) ∧
    ((softmaxD xs).sum = 1) ∧
    (softmaxD (xs.map (fun v => v + c)) = softmaxD xs) :=
  ⟨softmaxV_data l, softmaxD_pos_le xs hxs, softmaxD_sum xs hxs,
    softmaxD_shift xs hxs c⟩

theorem claim_C5_softmax_witness :
    ([(0 : ℝ), 1] ≠ []) ∧
    (((softmaxV [Value.ofNum 0]).map Value.data
        = softmaxD ([Value.ofNum 0].map Value.data)) ∧
     (∀ e ∈ softmaxD [(0 : ℝ), 1], 0 < e ∧ e ≤ 1) ∧
     ((softmaxD [(0 : ℝ), 1]).sum = 1) ∧
     (softmaxD ([(0 : ℝ), 1].map (fun v => v + 5)) = softmaxD [(0 : ℝ), 1])) :=
  ⟨List.cons_ne_nil 0 [1],
    claim_C5_softmax [Value.ofNum 0] [(0 : ℝ), 1] (List.cons_ne_nil 0 [1]) 5⟩

/-- C6: rmsnorm multiplies every entry by (ms + 1e-5) to the power -0.5
where ms is the mean square, with no learned gain or bias (first
conjunct, an identity of the embedded definition).  The output mean
square misses 1 by exactly epsilon over ms + epsilon, hence by at most
epsilon over ms for any input with positive mean square (the nonzero
inputs); and with the epsilon term removed the normalization is exactly
invariant under scaling the input by a positive constant. -/
theorem claim_C6_rmsnorm (x : List ℝ) (c : ℝ) (hc : 0 < c) :
    (rmsnorm x = x.map (fun xi => xi * (msD x + 1e-5) ^ (-(0.5) : ℝ))) ∧
    (1 - msD (rmsnorm x) = 1e-5 / (msD x + 1e-5)) ∧
    (0 < msD x → |1 - msD (rmsnorm x)| ≤ 1e-5 / msD x) ∧
    (rmsnormGen 0 (x.map (fun xi => c * xi)) = rmsnormGen 0 x) := by
  refine ⟨rfl, rmsnorm_gap x, ?_, rmsnormGen_zero_scale c hc x⟩
  intro hms
  rw [rmsnorm_gap x]
  have h5 : (0 : ℝ) < 1e-5 := by norm_num
  have hpos : (0 : ℝ) < msD x + 1e-5 := by linarith
  rw [abs_of_nonneg (le_of_lt (div_pos h5 hpos))]
  rw [div_le_div_iff₀ hpos hms]
  have : msD x ≤ msD x + 1e-5 := by linarith
  exact mul_le_mul_of_nonneg_left this (le_of_lt h5)

theorem claim_C6_rmsnorm_witness :
    (0 : ℝ) < 2 ∧
    ((rmsnorm [(1 : ℝ)]
        = [(1 : ℝ)].map (fun xi => xi * (msD [(1 : ℝ)] + 1e-5) ^ (-(0.5) : ℝ))) ∧
     (1 - msD (rmsnorm [(1 : ℝ)]) = 1e-5 / (msD [(1 : ℝ)] + 1e-5)) ∧
     (0 < msD [(1 : ℝ)] → |1 - msD (rmsnorm [(1 : ℝ)])| ≤ 1e-5 / msD [(1 : ℝ)]) ∧
     (rmsnormGen 0 ([(1 : ℝ)].map (fun xi => 2 * xi)) = rmsnormGen 0 [(1 : ℝ)])) :=
  ⟨zero_lt_two, claim_C6_rmsnorm [(1 : ℝ)] 2 zero_lt_two⟩

/-- C9: the load routines of Llama.load and Deepseek.load perform no
length comparison at all: loading a file with fewer floats than the model
has parameters completes without any error and leaves the surplus
parameters with the undefined value of an out-of-range typed-array read
(modelled as none), and the result always has the parameter-list length
whatever the file length, so a longer file is silently truncated.  The
claim of the spec that a length mismatch is a fatal, clearly reported
error describes the intended behavior, not the code. -/
theorem claim_C9_load_no_length_check :
    (loadParams ([0, 0] : List ℚ) ([5] : List ℚ) = [some 5, none]) ∧
    (∀ (params file : List ℚ),
      (loadParams params file).length = params.length) := by
  constructor
  · rfl
  · intro params file
    simp [loadParams]

/-- C10: under the JavaScript call semantics of the shared driver, which
passes both a keys cache and a values cache to every variant, the
Deepseek forward body receives only the third argument (the latent
cache): the logits and the latent cache after the call do not depend on
the values argument, the values argument is returned untouched, and after
any number of driver iterations the values cache is still the fresh empty
per-layer list while the keys slot carries exactly the latent cache of
the plain Deepseek run. -/
theorem claim_C10_values_cache_ignored (st : DSState) (cfg : DSConfig)
    (toks : Nat → Nat) (tok pos : Nat) (keys v1 v2 : List (List Vec)) :
    ((dsForwardJS st cfg tok pos keys v1).1
      = (dsForwardJS st cfg tok pos keys v2).1) ∧
    ((dsForwardJS st cfg tok pos keys v1).2.1
      = (dsForwardJS st cfg tok pos keys v2).2.1) ∧
    ((dsForwardJS st cfg tok pos keys v1).2.2 = v1) ∧
    (∀ k, (dsDriverRun st cfg toks k).2 = List.replicate cfg.n_layer []) ∧
    (∀ k, (dsDriverRun st cfg toks k).1 = dsRun st cfg toks k) := by
  refine ⟨rfl, rfl, rfl, ?_, ?_⟩
  · intro k
    induction k with
    | zero => rfl
    | succ k ih =>
      show (dsDriverRun st cfg toks k).2 = List.replicate cfg.n_layer []
      exact ih
  · intro k
    induction k with
    | zero => rfl
    | succ k ih =>
      show (dsForward st cfg (toks k) k (dsDriverRun st cfg toks k).1).2
        = (dsForward st cfg (toks k) k (dsRun st cfg toks k)).2
      rw [ih]

/-- C3: in the Deepseek variant, on every forward call and for every
cached position, the attention key and value are reconstructed by
up-projecting the stored latent through the shared expansion matrix
attn_wkv: the logit of cached entry t is the scaled dot product of the
query head with the RoPE rotation, at the literal position 0, of the
first head_dim entries of the up-projection (first conjunct, an identity
of the embedded loop); the rotation at the fixed reference position 0 is
the identity map, so the reconstructed key does not depend on the
position at which the latent was cached (second conjunct); the head
output is the softmax-weighted sum of the values sliced from entries
head_dim to 2 * head_dim of the same up-projection (third conjunct); and
the only cache the layer touches is the latent cache, to which it appends
exactly the compressed latent, so no raw key or value storage exists
(fourth conjunct). -/
theorem claim_C3_latent_reconstruction (st : DSState) (cfg : DSConfig)
    (li : Nat) (q_h : Vec) (kc : List Vec) (x0 : Vec) (pos : Nat)
    (hrows : (st.attn_wkv li).length = cfg.n_embd)
    (hle : cfg.head_dim ≤ cfg.n_embd) (heven : cfg.head_dim % 2 = 0) :
    (dsAttnLogits st cfg li q_h kc = (List.range kc.length).map (fun t =>
      dotLoop cfg.head_dim q_h
        (apply_rope (sliceL (linearD (kc.getD t []) (st.attn_wkv li)) 0
          cfg.head_dim) 0 cfg.head_dim)
        / Real.sqrt ((cfg.head_dim : ℕ) : ℝ))) ∧
    (∀ v : Vec, v.length = cfg.head_dim → apply_rope v 0 cfg.head_dim = v) ∧
    (dsHeadOut st cfg li q_h kc
      = (List.range cfg.head_dim).map (fun j =>
          (List.zipWith (fun wt vt => wt * vt.getD j 0)
            (softmaxD ((dsSpecKeys st cfg li kc).map
              (fun kt => dotLoop cfg.head_dim q_h kt
                / Real.sqrt ((cfg.head_dim : ℕ) : ℝ))))
            (dsSpecVals st cfg li kc)).sum)) ∧
    ((dsLayer st cfg li x0 pos kc).2
      = kc ++ [linearD (rmsnorm x0) (st.attn_compress_kv li)]) :=
  ⟨rfl, fun v hv => apply_rope_zero cfg.head_dim v hv heven,
    dsHeadOut_eq_spec st cfg li q_h kc hrows hle heven, rfl⟩

theorem claim_C3_latent_reconstruction_witness :
    ((wDS.attn_wkv 0).length = wDSCfg.n_embd ∧
     wDSCfg.head_dim ≤ wDSCfg.n_embd ∧ wDSCfg.head_dim % 2 = 0) ∧
    ((dsAttnLogits wDS wDSCfg 0 [1, 0] [[1, 0]]
      = (List.range ([[1, 0]] : List Vec).length).map (fun t =>
        dotLoop wDSCfg.head_dim [1, 0]
          (apply_rope (sliceL (linearD (([[1, 0]] : List Vec).getD t [])
            (wDS.attn_wkv 0)) 0 wDSCfg.head_dim) 0 wDSCfg.head_dim)
          / Real.sqrt ((wDSCfg.head_dim : ℕ) : ℝ))) ∧
     (∀ v : Vec, v.length = wDSCfg.head_dim →
        apply_rope v 0 wDSCfg.head_dim = v) ∧
     (dsHeadOut wDS wDSCfg 0 [1, 0] [[1, 0]]
      = (List.range wDSCfg.head_dim).map (fun j =>
          (List.zipWith (fun wt vt => wt * vt.getD j 0)
            (softmaxD ((dsSpecKeys wDS wDSCfg 0 [[1, 0]]).map
              (fun kt => dotLoop wDSCfg.head_dim [1, 0] kt
                / Real.sqrt ((wDSCfg.head_dim : ℕ) : ℝ))))
            (dsSpecVals wDS wDSCfg 0 [[1, 0]])).sum)) ∧
     ((dsLayer wDS wDSCfg 0 [1, 0] 0 [[1, 0]]).2
      = [[1, 0]] ++ [linearD (rmsnorm [1, 0]) (wDS.attn_compress_kv 0)])) :=
  ⟨⟨rfl, by decide, by decide⟩,
    claim_C3_latent_reconstruction wDS wDSCfg 0 [1, 0] [[1, 0]] [1, 0] 0
      rfl (by decide) (by decide)⟩

/-- C4: for every model variant, each forward call appends exactly one
entry to each per-layer cache the variant owns and never truncates or
reorders it (the append conjuncts exhibit the new cache as the old cache
with one appended element), so after k forward calls on a freshly
allocated empty cache every per-layer cache has length exactly k.  The
attention of call k ranges over precisely the k entries already cached
plus the entry appended by the call itself, and over nothing else: in
the embedding the head computations receive exactly the appended cache
as input, so no later entry exists to be read. -/
theorem claim_C4_cache :
    (∀ (st : GPTState) (cfg : GPTConfig) (tok pos : Nat)
        (ks vs : List (List Vec)), ks.length = cfg.n_layer →
        vs.length = cfg.n_layer → ∀ li, li < cfg.n_layer →
        (∃ w, (gptForward st cfg tok pos ks vs).2.1.getD li []
            = ks.getD li [] ++ [w]) ∧
        (∃ w, (gptForward st cfg tok pos ks vs).2.2.getD li []
            = vs.getD li [] ++ [w])) ∧
    (∀ (st : GPTState) (cfg : GPTConfig) (toks : Nat → Nat) (k li : Nat),
      li < cfg.n_layer →
      ((gptRun st cfg toks k).1.getD li []).length = k ∧
      ((gptRun st cfg toks k).2.getD li []).length = k) ∧
    (∀ (st : LlamaState) (cfg : LlamaConfig) (tok pos : Nat)
        (ks vs : List (List (List Vec))), ks.length = cfg.n_layer →
        vs.length = cfg.n_layer → ∀ li, li < cfg.n_layer →
        (∃ w, (llamaForward st cfg tok pos ks vs).2.1.getD li []
            = ks.getD li [] ++ [w]) ∧
        (∃ w, (llamaForward st cfg tok pos ks vs).2.2.getD li []
            = vs.getD li [] ++ [w])) ∧
    (∀ (st : LlamaState) (cfg : LlamaConfig) (toks : Nat → Nat) (k li : Nat),
      li < cfg.n_layer →
      ((llamaRun st cfg toks k).1.getD li []).length = k ∧
      ((llamaRun st cfg toks k).2.getD li []).length = k) ∧
    (∀ (st : DSState) (cfg : DSConfig) (tok pos : Nat)
        (ks : List (List Vec)), ks.length = cfg.n_layer →
        ∀ li, li < cfg.n_layer →
        ∃ w, (dsForward st cfg tok pos ks).2.getD li []
            = ks.getD li [] ++ [w]) ∧
    (∀ (st : DSState) (cfg : DSConfig) (toks : Nat → Nat) (k li : Nat),
      li < cfg.n_layer →
      ((dsRun st cfg toks k).getD li []).length = k) := by
  refine ⟨?_, ?_, ?_, ?_, ?_, ?_⟩
  · intro st cfg tok pos ks vs hks hvs li hli
    obtain ⟨_, _, hin⟩ := gptLayers_cache st cfg (List.range cfg.n_layer)
      (List.nodup_range _)
      (rmsnorm (List.zipWith (· + ·) (st.wte.getD tok [])
        (st.wpe.getD pos []))) ks vs
    exact hin li (List.mem_range.mpr hli) (hks ▸ hli) (hvs ▸ hli)
  · intro st cfg toks k li hli
    exact (gptRun_spec st cfg toks k).2 li hli
  · intro st cfg tok pos ks vs hks hvs li hli
    obtain ⟨_, _, hin⟩ := llamaLayers_cache st cfg pos
      (List.range cfg.n_layer) (List.nodup_range _)
      (rmsnorm (st.wte.getD tok [])) ks vs
    exact hin li (List.mem_range.mpr hli) (hks ▸ hli) (hvs ▸ hli)
  · intro st cfg toks k li hli
    exact (llamaRun_spec st cfg toks k).2 li hli
  · intro st cfg tok pos ks hks li hli
    obtain ⟨_, _, hin⟩ := dsLayers_cache st cfg pos
      (List.range cfg.n_layer) (List.nodup_range _)
      (rmsnorm (st.wte.getD tok [])) ks
    exact hin li (List.mem_range.mpr hli) (hks ▸ hli)
  · intro st cfg toks k li hli
    exact (dsRun_spec st cfg toks k).2 li hli

theorem claim_C4_cache_witness :
    (∃ w, (gptForward wGPT wGPTCfg 0 0 [[]] [[]]).2.1.getD 0 []
        = ([[]] : List (List Vec)).getD 0 [] ++ [w]) ∧
    ((gptRun wGPT wGPTCfg (fun _ => 0) 2).1.getD 0 []).length = 2 ∧
    (∃ w, (llamaForward wLlama wLlamaCfg 0 0 [[]] [[]]).2.1.getD 0 []
        = ([[]] : List (List (List Vec))).getD 0 [] ++ [w]) ∧
    ((llamaRun wLlama wLlamaCfg (fun _ => 0) 2).1.getD 0 []).length = 2 ∧
    (∃ w, (dsForward wDS wDSCfg 0 0 [[]]).2.getD 0 []
        = ([[]] : List (List Vec)).getD 0 [] ++ [w]) ∧
    ((dsRun wDS wDSCfg (fun _ => 0) 2).getD 0 []).length = 2 :=
  ⟨(claim_C4_cache.1 wGPT wGPTCfg 0 0 [[]] [[]] rfl rfl 0 (by decide)).1,
    (claim_C4_cache.2.1 wGPT wGPTCfg (fun _ => 0) 2 0 (by decide)).1,
    (claim_C4_cache.2.2.1 wLlama wLlamaCfg 0 0 [[]] [[]] rfl rfl 0
      (by decide)).1,
    (claim_C4_cache.2.2.2.1 wLlama wLlamaCfg (fun _ => 0) 2 0 (by decide)).1,
    claim_C4_cache.2.2.2.2.1 wDS wDSCfg 0 0 [[]] rfl 0 (by decide),
    claim_C4_cache.2.2.2.2.2 wDS wDSCfg (fun _ => 0) 2 0 (by decide)⟩

theorem llamaAttn_eq_spec_aux (cfg : LlamaConfig) (q_heads : List Vec)
    (kc vc : List (List Vec))
    (hqlen : q_heads.length = cfg.n_head)
    (hq : ∀ qh ∈ q_heads, qh.length = cfg.head_dim)
    (hk : ∀ kt ∈ kc, ∀ h, h < cfg.n_head →
      (kt.getD (h / cfg.n_rep) []).length = cfg.head_dim)
    (hlen : kc.length = vc.length) :
    llamaAttn cfg q_heads kc vc
      = (List.range cfg.n_head).flatMap (fun h =>
          specAttnHead cfg.head_dim (q_heads.getD h [])
            (kc.map (fun kt => kt.getD (h / cfg.n_rep) []))
            (vc.map (fun vt => vt.getD (h / cfg.n_rep) []))) := by
  unfold llamaAttn
  apply List.flatMap_congr
  intro h hmem
  have hlt : h < cfg.n_head := List.mem_range.mp hmem
  have hq2 : (q_heads.getD h []).length = cfg.head_dim :=
    hq _ (getD_mem (hqlen ▸ hlt))
  have hk2 : ∀ k ∈ kc.map (fun kt => kt.getD (h / cfg.n_rep) []),
      k.length = cfg.head_dim := by
    intro k hkm
    rcases List.mem_map.mp hkm with ⟨kt, hkt, hke⟩
    exact hke ▸ hk kt hkt h hlt
  have hlen2 : (kc.map (fun kt => kt.getD (h / cfg.n_rep) [])).length
      = (vc.map (fun vt => vt.getD (h / cfg.n_rep) [])).length := by
    rw [List.length_map, List.length_map, hlen]
  have hmain := llamaHeadOut_eq_spec cfg.head_dim (q_heads.getD h [])
    (kc.map (fun kt => kt.getD (h / cfg.n_rep) []))
    (vc.map (fun vt => vt.getD (h / cfg.n_rep) [])) hq2 hk2 hlen2
  show llamaHeadOut cfg.head_dim (q_heads.getD h [])
      (kc.map (fun kt => kt.getD (h / cfg.n_rep) []))
      (vc.map (fun vt => vt.getD (h / cfg.n_rep) []))
    = specAttnHead cfg.head_dim (q_heads.getD h [])
      (kc.map (fun kt => kt.getD (h / cfg.n_rep) []))
      (vc.map (fun vt => vt.getD (h / cfg.n_rep) []))
  exact hmain

/-- C7: in the Llama variant each query head h attends against the cached
key/value head of index h divided (flooring) by n_head / n_kv_head, so
each group of n_head / n_kv_head consecutive query heads shares one
key/value head (n_rep is defined as that quotient, first conjunct), and
with that selection the head computation is the scaled dot-product
attention of Variant A (second conjunct, via the head equivalence at
matching shapes). -/
theorem claim_C7_gqa (cfg : LlamaConfig) (q_heads : List Vec)
    (kc vc : List (List Vec))
    (hqlen : q_heads.length = cfg.n_head)
    (hq : ∀ qh ∈ q_heads, qh.length = cfg.head_dim)
    (hk : ∀ kt ∈ kc, ∀ h, h < cfg.n_head →
      (kt.getD (h / cfg.n_rep) []).length = cfg.head_dim)
    (hlen : kc.length = vc.length) :
    (cfg.n_rep = cfg.n_head / cfg.n_kv_head) ∧
    (llamaAttn cfg q_heads kc vc
      = (List.range cfg.n_head).flatMap (fun h =>
          specAttnHead cfg.head_dim (q_heads.getD h [])
            (kc.map (fun kt => kt.getD (h / (cfg.n_head / cfg.n_kv_head)) []))
            (vc.map (fun vt =>
              vt.getD (h / (cfg.n_head / cfg.n_kv_head)) [])))) := by
  refine ⟨rfl, ?_⟩
  show llamaAttn cfg q_heads kc vc
    = (List.range cfg.n_head).flatMap (fun h =>
        specAttnHead cfg.head_dim (q_heads.getD h [])
          (kc.map (fun kt => kt.getD (h / cfg.n_rep) []))
          (vc.map (fun vt => vt.getD (h / cfg.n_rep) [])))
  exact llamaAttn_eq_spec_aux cfg q_heads kc vc hqlen hq hk hlen

theorem claim_C7_gqa_witness :
    (([[(1 : ℝ)]] : List Vec).length = wLlamaCfg.n_head) ∧
    ((wLlamaCfg.n_rep = wLlamaCfg.n_head / wLlamaCfg.n_kv_head) ∧
     (llamaAttn wLlamaCfg [[(1 : ℝ)]] [[[1]]] [[[1]]]
      = (List.range wLlamaCfg.n_head).flatMap (fun h =>
          specAttnHead wLlamaCfg.head_dim
            (([[(1 : ℝ)]] : List Vec).getD h [])
            (([[[1]]] : List (List Vec)).map (fun kt =>
              kt.getD (h / (wLlamaCfg.n_head / wLlamaCfg.n_kv_head)) []))
            (([[[1]]] : List (List Vec)).map (fun vt =>
              vt.getD (h / (wLlamaCfg.n_head / wLlamaCfg.n_kv_head)) []))))) :=
  ⟨rfl, claim_C7_gqa wLlamaCfg [[(1 : ℝ)]] [[[1]]] [[[1]]] rfl
    (by
      intro qh hqh
      rw [List.mem_singleton.mp hqh]
      rfl)
    (by
      intro kt hkt h hh
      rw [List.mem_singleton.mp hkt, Nat.lt_one_iff.mp hh]
      rfl)
    rfl⟩

/-- C8: in the Deepseek feed-forward sub-layer the router produces one
logit per expert and their softmax weights every expert: the
mixture output is, cell by cell, the sum over all n_experts experts of
the router probability times the expert output (first conjunct); each
expert output is an independent SwiGLU feed-forward of the normalized
input (second conjunct); the layer output adds that weighted sum to the
post-attention residual (third conjunct); and the configured n_active
count is never used: the forward pass is unchanged under any replacement
of n_active (fourth conjunct). -/
theorem claim_C8_moe (st : DSState) (cfg : DSConfig) (li : Nat)
    (x x0 : Vec) (pos : Nat) (kc : List Vec) :
    (dsMoE st cfg li x = (List.range cfg.n_embd).map (fun j =>
      ((List.range cfg.n_experts).map (fun e =>
        (softmaxD (linearD x (st.router li))).getD e 0
          * (dsExpertOut st li e x).getD j 0)).sum)) ∧
    (∀ e, dsExpertOut st li e x
      = linearD ((List.range (linearD x (st.expert_gate li e)).length).map
          (fun i => siluD ((linearD x (st.expert_gate li e)).getD i 0)
            * (linearD x (st.expert_up li e)).getD i 0))
        (st.expert_down li e)) ∧
    ((dsLayer st cfg li x0 pos kc).1
      = List.zipWith (· + ·)
          (dsMoE st cfg li (rmsnorm (dsAfterAttn st cfg li x0 pos kc)))
          (dsAfterAttn st cfg li x0 pos kc)) ∧
    (∀ (a tok pos2 : Nat) (cache : List (List Vec)),
      dsForward st { cfg with n_active := a } tok pos2 cache
        = dsForward st cfg tok pos2 cache) :=
  ⟨dsMoE_eq st cfg li x, fun _ => rfl, rfl,
    fun a tok pos2 cache => dsForward_n_active st cfg a tok pos2 cache⟩

end MicroLLMs
